import Mathlib

/-
  Verification of the `ratelimiter` and `gzip` middleware of the ares-contrib
  repository, as a shallow embedding in Lean 4.

  Conventions of the embedding:
  * Time is measured in seconds and modelled by `ℚ` (the Go code uses
    `time.Time` / `time.Duration`; the spec treats rates and times as real
    numbers, and all arithmetic in scope is exact).
  * Go `float64` rates are modelled by `ℚ`, Go `int` by `ℤ`.
  * Go maps (`map[string]*limiterEntry`) are modelled as association lists
    `List (String × limiterEntry)`; `delete` inside `range` becomes a filter.
  * Pointer mutation of a bucket through the returned `*rate.Limiter` is
    modelled by writing the post-`Allow` bucket back into the registry entry.
-/

namespace Ratelimiter

/-- Modelled from the spec: the token bucket of `golang.org/x/time/rate`
(the `admit` operation of spec §4.1); the library itself is not part of
the repository.  `tokens` refill continuously at `rate` per second, capped
at `burst`; an admission consumes one token. -/
structure Limiter where
  rate : ℚ
  burst : ℤ
  tokens : ℚ
  last : ℚ
deriving DecidableEq

/-- Modelled from the spec: `rate.NewLimiter(r, b)` — a fresh bucket with
full burst capacity, created at time `now`. -/
def NewLimiter (r : ℚ) (b : ℤ) (now : ℚ) : Limiter :=
  { rate := r, burst := b, tokens := (b : ℚ), last := now }

/-- Modelled from the spec: refill — add `elapsed * rate` tokens, capped at
`burst`, and move `last` to `now`. -/
def advance (l : Limiter) (now : ℚ) : Limiter :=
  { l with tokens := min (l.burst : ℚ) (l.tokens + (now - l.last) * l.rate), last := now }

/-- Modelled from the spec: `Limiter.Allow()` at time `now` — refill, then
consume one token if at least one is available. -/
def allow (l : Limiter) (now : ℚ) : Bool × Limiter :=
  let l2 := advance l now
  if 1 ≤ l2.tokens then (true, { l2 with tokens := l2.tokens - 1 })
  else (false, l2)

/-- A sequence of `Allow` calls on one bucket, at the given times; returns
the decisions and the final bucket state. -/
def admitsRun (l : Limiter) : List ℚ → List Bool × Limiter
  | [] => ([], l)
  | t :: rest =>
    let r1 := allow l t
    let r2 := admitsRun r1.2 rest
    (r1.1 :: r2.1, r2.2)

/-- `limiterEntry` of the source: a bucket together with its last access time. -/
structure limiterEntry where
  limiter : Limiter
  lastAccess : ℚ
deriving DecidableEq

/-- Lookup in the registry map (Go map indexing `rl.limiters[key]`). -/
def mapLookup : List (String × limiterEntry) → String → Option limiterEntry
  | [], _ => none
  | (k', e) :: rest, k => if k' = k then some e else mapLookup rest k

/-- In-place update of the entry stored under `k` (Go mutation through the
`*limiterEntry` pointer). -/
def mapUpdate : List (String × limiterEntry) → String → (limiterEntry → limiterEntry) →
    List (String × limiterEntry)
  | [], _, _ => []
  | (k', e) :: rest, k, f =>
    if k' = k then (k', f e) :: rest else (k', e) :: mapUpdate rest k f

/-- The registry keys are pairwise distinct (a Go map invariant). -/
def uniqueKeys (l : List (String × limiterEntry)) : Prop :=
  (l.map Prod.fst).Nodup

/-- `rateLimiter` of the source (the cleanup channel/cancel plumbing is
modelled separately by `LoopState` / `Stop`). -/
structure rateLimiter where
  limiters : List (String × limiterEntry)
  rate : ℚ
  burst : ℤ

/-- `newRateLimiter` of the source. -/
def newRateLimiter (r : ℚ) (burst : ℤ) : rateLimiter :=
  { limiters := [], rate := r, burst := burst }

/-- `getLimiter` of the source, sequentialised: return the entry's bucket,
updating `lastAccess`; on a miss insert a fresh bucket.  (The double-checked
re-read after taking the write lock coincides with the first read in a
sequential run; the race itself is analysed by the `Race` machine below.) -/
def getLimiter (rl : rateLimiter) (key : String) (now : ℚ) : Limiter × rateLimiter :=
  match mapLookup rl.limiters key with
  | some e =>
    (e.limiter,
     { rl with limiters := mapUpdate rl.limiters key (fun e0 => { e0 with lastAccess := now }) })
  | none =>
    let e : limiterEntry := { limiter := NewLimiter rl.rate rl.burst now, lastAccess := now }
    (e.limiter, { rl with limiters := (key, e) :: rl.limiters })

/-- One admission check of the middleware body: `getLimiter` followed by
`Allow`, the post-`Allow` bucket written back through the shared pointer. -/
def checkRequest (rl : rateLimiter) (key : String) (now : ℚ) : Bool × rateLimiter :=
  let g := getLimiter rl key now
  let a := allow g.1 now
  (a.1, { g.2 with limiters := mapUpdate g.2.limiters key (fun e0 => { e0 with limiter := a.2 }) })

/-- A sequence of admission checks (key, time). -/
def checkRun (rl : rateLimiter) : List (String × ℚ) → List Bool × rateLimiter
  | [] => ([], rl)
  | (k, t) :: rest =>
    let r1 := checkRequest rl k t
    let r2 := checkRun r1.2 rest
    (r1.1 :: r2.1, r2.2)

/-- One pass of the cleanup sweep (the `ticker.C` branch of `cleanup`):
delete every entry with `now - lastAccess > maxAge`, keep the others. -/
def cleanupPass (l : List (String × limiterEntry)) (now maxAge : ℚ) :
    List (String × limiterEntry) :=
  l.filter (fun p => !decide (now - p.2.lastAccess > maxAge))

/-- Last element of a time list, with a default (tracks `lastAccess`). -/
def lastOf : List ℚ → ℚ → ℚ
  | [], la => la
  | t :: rest, _ => lastOf rest t

/-- The registry after a fresh key exhausts its burst with `b + 1`
immediate checks (the scenario of spec P1). -/
def exhaustedRun (R : ℚ) (b : ℕ) (k : String) (t : ℚ) : rateLimiter :=
  (checkRun (newRateLimiter R (b : ℤ)) (List.replicate (b + 1) (k, t))).2

/-- Number of admitted checks in a decision list. -/
def countTrue : List Bool → ℕ
  | [] => 0
  | true :: rest => countTrue rest + 1
  | false :: rest => countTrue rest

/-- An inbound HTTP request, restricted to the fields the rate limiter
reads.  A header value of `""` stands for an absent header, matching the
`Header.Get` convention of Go. -/
structure Request where
  remoteAddr : String
  xForwardedFor : String
  xRealIP : String

/-- The response written on the reject path (status, `Content-Type`, body);
other headers are not modelled. -/
structure HttpResponse where
  status : ℕ
  contentType : Option String
  body : String

/-- Split a character list on a separator, as Go `strings.Split` with a
one-character separator (`strings.Split("", sep)` yields `[""]`). -/
def splitList (sep : Char) : List Char → List (List Char)
  | [] => [[]]
  | c :: rest =>
    let r := splitList sep rest
    if c = sep then [] :: r
    else match r with
      | [] => [[c]]
      | g :: gs => (c :: g) :: gs

/-- Go `strings.Split(s, sep)` for a one-character separator. -/
def goSplit (s : String) (sep : Char) : List String :=
  (splitList sep s.toList).map (fun cs => ⟨cs⟩)

/-- Go `strings.TrimSpace` (ASCII whitespace suffices for the inputs in
scope). -/
def trimSpace (s : String) : String :=
  ⟨((s.toList.dropWhile Char.isWhitespace).reverse.dropWhile Char.isWhitespace).reverse⟩

/-- Decimal value of a digit list. -/
def digitsToNat (cs : List Char) : ℕ :=
  cs.foldl (fun n c => 10 * n + (c.toNat - '0'.toNat)) 0

/-- One dotted-decimal field of an IPv4 address, as accepted by Go
`net.ParseIP`: non-empty, digits only, value at most 255, and no leading
zero. -/
def parseOctet (cs : List Char) : Option ℕ :=
  if cs.isEmpty then none
  else if !cs.all Char.isDigit then none
  else if cs.head? = some '0' ∧ cs.length > 1 then none
  else if digitsToNat cs ≤ 255 then some (digitsToNat cs) else none

/-- An IPv4 address. -/
structure IPv4 where
  a : ℕ
  b : ℕ
  c : ℕ
  d : ℕ
deriving DecidableEq

/-- Model of Go `net.ParseIP`, restricted to the dotted-quad IPv4 fragment
exercised by this middleware; other syntaxes (IPv6 literals) map to `none`. -/
def parseIP (s : String) : Option IPv4 :=
  match (splitList '.' s.toList).map parseOctet with
  | [some a, some b, some c, some d] => some ⟨a, b, c, d⟩
  | _ => none

/-- Go `net.IP.IsLoopback` for IPv4: the `127.0.0.0/8` block. -/
def IsLoopback (ip : IPv4) : Bool :=
  ip.a = 127

/-- Index of the last `':'` of a character list, if any. -/
def lastColonIdx : List Char → Option ℕ
  | [] => none
  | c :: rest =>
    match lastColonIdx rest with
    | some i => some (i + 1)
    | none => if c = ':' then some 0 else none

/-- Model of Go `net.SplitHostPort`, restricted to the unbracketed form
`host:port` used with IPv4 peers; an address with no colon, extra colons,
or brackets fails, as in Go (bracketed IPv6 literals are out of the
modelled fragment). -/
def splitHostPort (s : String) : Option (String × String) :=
  let cs := s.toList
  if cs.contains '[' ∨ cs.contains ']' then none
  else
    match lastColonIdx cs with
    | none => none
    | some i =>
      let host := cs.take i
      if host.contains ':' then none
      else some (⟨host⟩, ⟨cs.drop (i + 1)⟩)

/-- The proxy-header fallback of `extractIP` (the code after the
`RemoteAddr` attempt): first valid non-loopback `X-Forwarded-For` entry,
then a valid non-loopback `X-Real-IP`, else `RemoteAddr` verbatim. -/
def extractIPFromHeaders (r : Request) : String :=
  let viaFwd : Option String :=
    if r.xForwardedFor ≠ "" then
      ((goSplit r.xForwardedFor ',').map trimSpace).find?
        (fun ip => match parseIP ip with
          | some p => !IsLoopback p
          | none => false)
    else none
  match viaFwd with
  | some ip => ip
  | none =>
    if r.xRealIP ≠ "" then
      match parseIP r.xRealIP with
      | some p => if !IsLoopback p then r.xRealIP else r.remoteAddr
      | none => r.remoteAddr
    else r.remoteAddr

/-- `extractIP` of the source: host part of `RemoteAddr` when it splits as
`host:port` and the host parses as an IP; otherwise the proxy-header
fallback. -/
def extractIP (r : Request) : String :=
  match splitHostPort r.remoteAddr with
  | some hp => if (parseIP hp.1).isSome then hp.1 else extractIPFromHeaders r
  | none => extractIPFromHeaders r

/-- Modelled from the spec: a "public" IPv4 address — not loopback, not
RFC1918 private, not link-local, not unspecified, and not multicast or
reserved (the spec's key-extraction policy asks for the first public,
non-loopback proxy-header entry). -/
def IsPublic (ip : IPv4) : Bool :=
  !(ip.a = 127 ∨ ip.a = 10 ∨ (ip.a = 172 ∧ 16 ≤ ip.b ∧ ip.b ≤ 31) ∨
    (ip.a = 192 ∧ ip.b = 168) ∨ (ip.a = 169 ∧ ip.b = 254) ∨ ip.a = 0 ∨ 224 ≤ ip.a : Prop)

/-- Claim C6's key-extraction policy, following the spec's words: peer
address when it parses; else the first public, non-loopback
`X-Forwarded-For` entry; else a valid public, non-loopback `X-Real-IP`;
else the raw peer address verbatim. -/
def specExtractIP (r : Request) : String :=
  match splitHostPort r.remoteAddr with
  | some hp =>
    if (parseIP hp.1).isSome then hp.1
    else specExtractIPFallback r
  | none => specExtractIPFallback r
where
  specExtractIPFallback (r : Request) : String :=
    let viaFwd : Option String :=
      if r.xForwardedFor ≠ "" then
        ((goSplit r.xForwardedFor ',').map trimSpace).find?
          (fun ip => match parseIP ip with
            | some p => IsPublic p ∧ !IsLoopback p
            | none => false)
      else none
    match viaFwd with
    | some ip => ip
    | none =>
      if r.xRealIP ≠ "" then
        match parseIP r.xRealIP with
        | some p => if IsPublic p ∧ !IsLoopback p then r.xRealIP else r.remoteAddr
        | none => r.remoteAddr
      else r.remoteAddr

/-- Claim C6 amended: the same policy with the "public" requirement
dropped — the code filters proxy-header candidates on validity and
non-loopback only. -/
def amendedExtractIP (r : Request) : String :=
  match splitHostPort r.remoteAddr with
  | some hp =>
    if (parseIP hp.1).isSome then hp.1
    else amendedExtractIPFallback r
  | none => amendedExtractIPFallback r
where
  amendedExtractIPFallback (r : Request) : String :=
    let viaFwd : Option String :=
      if r.xForwardedFor ≠ "" then
        ((goSplit r.xForwardedFor ',').map trimSpace).find?
          (fun ip => match parseIP ip with
            | some p => !IsLoopback p
            | none => false)
      else none
    match viaFwd with
    | some ip => ip
    | none =>
      if r.xRealIP ≠ "" then
        match parseIP r.xRealIP with
        | some p => if !IsLoopback p then r.xRealIP else r.remoteAddr
        | none => r.remoteAddr
      else r.remoteAddr

/-- `options` of the source. -/
structure options where
  rate : ℚ
  burst : ℤ
  keyFunc : Request → String
  errorHandler : Option (Request → HttpResponse)

/-- `Option` of the source (named `MwOption` here; `Option` is taken). -/
abbrev MwOption := options → options

/-- `WithRate` of the source. -/
def WithRate (r : ℚ) : MwOption := fun o => { o with rate := r }

/-- `WithBurst` of the source. -/
def WithBurst (b : ℤ) : MwOption := fun o => { o with burst := b }

/-- `WithKeyFunc` of the source. -/
def WithKeyFunc (f : Request → String) : MwOption := fun o => { o with keyFunc := f }

/-- `WithErrorHandler` of the source; the handler is modelled by the
response it writes. -/
def WithErrorHandler (h : Request → HttpResponse) : MwOption :=
  fun o => { o with errorHandler := some h }

/-- What `New` builds: the resolved options, the shared registry, and the
sweep parameters passed to `cleanup` (in seconds). -/
structure MwConfig where
  o : options
  limiter : rateLimiter
  cleanupInterval : ℚ
  cleanupMaxAge : ℚ

/-- `New` of the source: defaults (rate 10, burst 20, `extractIP`, no
error handler), option application, registry construction, and the
`cleanup(5*time.Minute, 10*time.Minute)` call. -/
def New (opts : List MwOption) : MwConfig :=
  let o := opts.foldl (fun acc f => f acc)
    { rate := 10, burst := 20, keyFunc := extractIP, errorHandler := none }
  { o := o
    limiter := newRateLimiter o.rate o.burst
    cleanupInterval := 5 * 60
    cleanupMaxAge := 10 * 60 }

/-- What one request observes from the middleware: which of the two paths
ran and the response written on the reject path (on admission the response
is whatever the wrapped handler produces). -/
structure ServeResult where
  nextCalled : Bool
  rejectCalled : Bool
  response : HttpResponse

/-- The per-request handler returned by `New`: extract the key, run
`getLimiter` + `Allow`, and either reject (custom handler or the default
429 JSON response) or invoke the wrapped handler. -/
def serveHTTP (o : options) (rl : rateLimiter) (next : Request → HttpResponse)
    (r : Request) (now : ℚ) : ServeResult × rateLimiter :=
  let key := o.keyFunc r
  let c := checkRequest rl key now
  if c.1 then
    ({ nextCalled := true, rejectCalled := false, response := next r }, c.2)
  else
    match o.errorHandler with
    | some h => ({ nextCalled := false, rejectCalled := true, response := h r }, c.2)
    | none =>
      ({ nextCalled := false, rejectCalled := true
         response :=
          { status := 429
            contentType := some "application/json"
            body := "\x7b\"error\":\"rate limit exceeded\"\x7d" } }, c.2)

/-- A request arriving from peer `1.2.3.4:80`, no proxy headers. -/
def reqPeer : Request :=
  { remoteAddr := "1.2.3.4:80", xForwardedFor := "", xRealIP := "" }

/-- A request with an unparseable peer address and a private (RFC1918,
non-loopback) `X-Forwarded-For` entry. -/
def reqPrivateFwd : Request :=
  { remoteAddr := "bad", xForwardedFor := "10.0.0.1", xRealIP := "" }

/-- A wrapped handler that answers 200 with an empty body. -/
def nextOk : Request → HttpResponse :=
  fun _ => { status := 200, contentType := none, body := "" }

/-- What the cleanup goroutine's `select` observes in one iteration: a
ticker fire at some time, or the cancellation delivered by `Stop`.  A trace
of these events is the sequence of branches the loop actually takes; ticks
may still occur in a trace after `Stop` calls `cancel()` (Go's `select`
picks among ready cases nondeterministically), which is why cancellation's
position in the trace is universally quantified in the theorems. -/
inductive LoopEvent where
  | tick (now : ℚ)
  | cancelled

/-- State of the `cleanup` goroutine: the shared registry and whether the
loop has returned (its deferred `close(cleanupDone)` has run). -/
structure LoopState where
  limiters : List (String × limiterEntry)
  returned : Bool

/-- One iteration of the `cleanup` loop: after the loop has returned
nothing happens; a tick runs one sweep pass; observing cancellation
returns from the loop (closing `cleanupDone`). -/
def loopStep (maxAge : ℚ) (s : LoopState) : LoopEvent → LoopState
  | e =>
    if s.returned then s
    else
      match e with
      | .cancelled => { s with returned := true }
      | .tick now => { s with limiters := cleanupPass s.limiters now maxAge }

/-- Run the `cleanup` loop over a trace of select outcomes. -/
def loopRun (maxAge : ℚ) (s : LoopState) (evs : List LoopEvent) : LoopState :=
  evs.foldl (loopStep maxAge) s

/-- `Stop` of the source: with `cleanupCancel` set it blocks on
`cleanupDone` — it returns exactly when the loop has closed that channel
(`returned`); with no cancel function it returns at once. -/
def Stop (cancelSet : Bool) (s : LoopState) : Bool :=
  !cancelSet || s.returned

namespace Race

/-
  Interleaving model of `getLimiter` racing with the cleanup sweep on one
  key.  Each mutex-protected section of the source runs atomically, and the
  fast path of `getLimiter` is two separate critical sections with an
  unprotected gap between them, exactly as in the source:
  * `start`        — the `RLock`ed read of `rl.limiters[key]` (lines 92-94);
  * `fastLock idx` — the later `Lock`ed `entry.lastAccess = now` update on
    the entry the read returned (lines 98-100), after which the call
    returns that entry's limiter;
  * `slow`         — the whole `Lock` block of the miss path (lines
    104-116): double-checked re-read, creation and insertion only if the
    key is still absent, `lastAccess` refresh otherwise;
  * a `sweep` event — one `Lock`ed pass of the cleanup ticker body (lines
    136-144), deleting the key when `now - lastAccess > maxAge`.
  Entry objects live on a heap indexed by creation order and are never
  destroyed (deleting the map key does not invalidate pointers already
  handed out, as with Go's garbage collector); `reg` is the map entry for
  the key; each goroutine `i` carries the `time.Now()` value `tnow i` it
  captured on entry to `getLimiter` (line 90).
-/

/-- Program counter of one goroutine inside `getLimiter`. -/
inductive PC where
  | start
  | fastLock (idx : ℕ)
  | slow
  | done (idx : ℕ)
deriving DecidableEq

/-- Shared state plus every goroutine's program counter. -/
structure St where
  tnow : ℕ → ℚ
  maxAge : ℚ
  heap : ℕ → ℚ
  created : ℕ
  reg : Option ℕ
  pcs : ℕ → PC

/-- Goroutine `i` executes its next atomic section of `getLimiter`. -/
def step (s : St) (i : ℕ) : St :=
  match s.pcs i with
  | .done _ => s
  | .start =>
    match s.reg with
    | some idx => { s with pcs := fun j => if j = i then .fastLock idx else s.pcs j }
    | none => { s with pcs := fun j => if j = i then .slow else s.pcs j }
  | .fastLock idx =>
    { s with
        heap := fun j => if j = idx then s.tnow i else s.heap j
        pcs := fun j => if j = i then .done idx else s.pcs j }
  | .slow =>
    match s.reg with
    | some idx =>
      { s with
          heap := fun j => if j = idx then s.tnow i else s.heap j
          pcs := fun j => if j = i then .done idx else s.pcs j }
    | none =>
      { s with
          heap := fun j => if j = s.created then s.tnow i else s.heap j
          created := s.created + 1
          reg := some s.created
          pcs := fun j => if j = i then .done s.created else s.pcs j }

/-- One `Lock`ed cleanup pass at time `now`: delete the key when its entry
has been idle for more than `maxAge`; the entry object itself survives. -/
def sweepStep (s : St) (now : ℚ) : St :=
  match s.reg with
  | some idx => if now - s.heap idx > s.maxAge then { s with reg := none } else s
  | none => s

/-- An event of the interleaving: one goroutine's next critical section,
or one cleanup pass. -/
inductive Ev where
  | run (i : ℕ)
  | sweep (now : ℚ)

/-- Run a schedule (an arbitrary interleaving of goroutine and sweep
steps). -/
def exec (s : St) (evs : List Ev) : St :=
  evs.foldl
    (fun s e =>
      match e with
      | .run i => step s i
      | .sweep now => sweepStep s now)
    s

/-- All goroutines about to resolve a key nobody has seen; goroutine `i`
entered `getLimiter` at time `tnow i`. -/
def init (tnow : ℕ → ℚ) (maxAge : ℚ) : St :=
  { tnow := tnow, maxAge := maxAge, heap := fun _ => 0, created := 0,
    reg := none, pcs := fun _ => .start }

/-- Goroutine clocks of the C7 counterexample run: goroutine 0 resolves the
key at time 0; goroutines 1 and 2 resolve it at time 1000, past the
600-second idle threshold. -/
def cxTimes : ℕ → ℚ :=
  fun i => if i = 0 then 0 else 1000

/-- C7 counterexample, first half: goroutine 0 creates the bucket at time
0; at time 1000 goroutine 1 reads it under `RLock`, and before goroutine 1
can take the write lock, a cleanup pass at time 1000 sees the entry idle
for 1000 > 600 seconds and deletes it. -/
def cxPrefix : List Ev :=
  [Ev.run 0, Ev.run 0, Ev.run 1, Ev.sweep 1000]

/-- C7 counterexample, full run: goroutine 2 then misses under `RLock`,
goroutine 1 completes its resolve returning the deleted entry 0, and
goroutine 2's `Lock` block creates a second bucket for the same key. -/
def cxTrace : List Ev :=
  cxPrefix ++ [Ev.run 2, Ev.run 1, Ev.run 2]

/-- Invariant of schedules whose sweeps all observe a time at most
`maxAge` past the common resolve time `t`: the configuration is fixed,
every allocated entry is stamped `t`, and the registry holds bucket 0 from
the single creation on, with every read and every completed resolve
referring to it. -/
def Inv (t maxAge : ℚ) (s : St) : Prop :=
  s.maxAge = maxAge ∧
  (∀ i, s.tnow i = t) ∧
  (∀ idx, idx < s.created → s.heap idx = t) ∧
  (s.reg = none → s.created = 0 ∧ ∀ i, s.pcs i = .start ∨ s.pcs i = .slow) ∧
  (∀ idx, s.reg = some idx → idx = 0 ∧ s.created = 1) ∧
  (∀ i idx, s.pcs i = .fastLock idx → s.reg = some idx) ∧
  (∀ i idx, s.pcs i = .done idx → s.reg = some idx)

end Race

end Ratelimiter

namespace Gzip

/-
  Shallow embedding of `gzipResponseWriter`.  Bytes are `ℕ`; the effects on
  the underlying `http.ResponseWriter` and on the `gzip.Writer` are recorded
  as a trace of events.  Headers other than `Content-Encoding` (the
  `Content-Length` deletion and `Vary`) are not modelled; the underlying
  writer never fails, so the error returns of the source are always nil.
-/

/-- An effect on the wrapped response writer. -/
inductive OutEvent where
  | header (code : ℕ) (gzipContentEncoding : Bool)
  | direct (bs : List ℕ)
  | gz (bs : List ℕ)
  | gzClose
deriving DecidableEq

/-- `gzipResponseWriter` of the source (`shouldCompress *bool` becomes
`Option Bool`). -/
structure gzipResponseWriter where
  wroteHeader : Bool
  headersSent : Bool
  minLength : ℕ
  buffer : List ℕ
  shouldCompress : Option Bool
deriving DecidableEq

/-- `newGzipResponseWriter` of the source. -/
def newGzipResponseWriter (minLength : ℕ) : gzipResponseWriter :=
  { wroteHeader := false, headersSent := false, minLength := minLength
    buffer := [], shouldCompress := none }

/-- `WriteHeader` of the source. -/
def writeHeaderImpl (s : gzipResponseWriter) (code : ℕ) :
    gzipResponseWriter × List OutEvent :=
  if s.wroteHeader then (s, [])
  else
    let sc1 : Option Bool :=
      if code = 204 ∨ code = 304 then some false else s.shouldCompress
    let sc2 : Option Bool :=
      match sc1 with
      | none => some (decide (s.minLength ≤ s.buffer.length))
      | some b => some b
    ({ s with wroteHeader := true, headersSent := true, shouldCompress := sc2 },
     [.header code (sc2.getD false)])

/-- The tail of `Write` after the decision is fixed: flush the buffer and
write `b`, directly or through the gzip stream.  (The `none` case is the
nil dereference of the source, unreachable; see `goodInv`-based lemmas.) -/
def writeTail (s : gzipResponseWriter) (b : List ℕ) :
    gzipResponseWriter × List OutEvent :=
  match s.shouldCompress with
  | some false =>
    if s.buffer.isEmpty then (s, [.direct b])
    else ({ s with buffer := [] }, [.direct s.buffer, .direct b])
  | some true =>
    if s.buffer.isEmpty then (s, [.gz b])
    else ({ s with buffer := [] }, [.gz s.buffer, .gz b])
  | none => (s, [])

/-- `Write` of the source. -/
def writeImpl (s : gzipResponseWriter) (b : List ℕ) :
    gzipResponseWriter × List OutEvent :=
  if s.headersSent then writeTail s b
  else if s.shouldCompress = none ∧ s.buffer.length + b.length < s.minLength then
    ({ s with buffer := s.buffer ++ b }, [])
  else
    let s1 :=
      match s.shouldCompress with
      | none =>
        { s with shouldCompress := some (decide (s.minLength ≤ s.buffer.length + b.length)) }
      | some _ => s
    let r2 := if s1.wroteHeader then (s1, ([] : List OutEvent)) else writeHeaderImpl s1 200
    let r3 := writeTail r2.1 b
    (r3.1, r2.2 ++ r3.2)

/-- `Close` of the source. -/
def closeImpl (s : gzipResponseWriter) : gzipResponseWriter × List OutEvent :=
  let r1 :=
    if s.shouldCompress = none ∧ ¬s.buffer.isEmpty then
      let s1 := { s with shouldCompress := some (decide (s.minLength ≤ s.buffer.length)) }
      if s1.wroteHeader then (s1, ([] : List OutEvent)) else writeHeaderImpl s1 200
    else (s, ([] : List OutEvent))
  let s2 := r1.1
  let r2 : gzipResponseWriter × List OutEvent :=
    if s2.buffer.isEmpty then (s2, [])
    else
      match s2.shouldCompress with
      | some true => ({ s2 with buffer := [] }, [.gz s2.buffer])
      | _ => ({ s2 with buffer := [] }, [.direct s2.buffer])
  let s3 := r2.1
  let r3 : List OutEvent :=
    match s3.shouldCompress with
    | some true => [.gzClose]
    | _ => []
  (s3, r1.2 ++ r2.2 ++ r3)

/-- One call the wrapped handler makes on the writer. -/
inductive HOp where
  | write (bs : List ℕ)
  | writeHeader (code : ℕ)

/-- Run one handler call. -/
def applyOp (s : gzipResponseWriter) : HOp → gzipResponseWriter × List OutEvent
  | .write bs => writeImpl s bs
  | .writeHeader code => writeHeaderImpl s code

/-- Run the handler's calls in order, accumulating the event trace. -/
def runOps (s : gzipResponseWriter) : List HOp → gzipResponseWriter × List OutEvent
  | [] => (s, [])
  | op :: rest =>
    let r1 := applyOp s op
    let r2 := runOps r1.1 rest
    (r2.1, r1.2 ++ r2.2)

/-- A whole response: the handler's calls, then the middleware's deferred
`Close`. -/
def runAll (s : gzipResponseWriter) (ops : List HOp) :
    gzipResponseWriter × List OutEvent :=
  let r1 := runOps s ops
  let r2 := closeImpl r1.1
  (r2.1, r1.2 ++ r2.2)

/-- Total number of body bytes the handler wrote. -/
def totalWritten : List HOp → ℕ
  | [] => 0
  | .write bs :: rest => bs.length + totalWritten rest
  | .writeHeader _ :: rest => totalWritten rest

/-- The body bytes the handler wrote, in order. -/
def writtenBytes : List HOp → List ℕ
  | [] => []
  | .write bs :: rest => bs ++ writtenBytes rest
  | .writeHeader _ :: rest => writtenBytes rest

/-- The bytes that reached the client uncompressed, in order. -/
def directOut : List OutEvent → List ℕ
  | [] => []
  | .direct bs :: rest => bs ++ directOut rest
  | _ :: rest => directOut rest

/-- Whether anything went through the gzip stream. -/
def hasGz : List OutEvent → Bool
  | [] => false
  | .gz _ :: _ => true
  | .gzClose :: _ => true
  | _ :: rest => hasGz rest

/-- Whether some header write set `Content-Encoding: gzip`. -/
def hasCE : List OutEvent → Bool
  | [] => false
  | .header _ ce :: rest => ce || hasCE rest
  | _ :: rest => hasCE rest

/-- The compression decision `WriteHeader` fixes when it actually runs
(`wroteHeader` still false): forced off for 204/304, otherwise the pending
decision, defaulting to the buffered-length test. -/
def scDecision (s : gzipResponseWriter) (code : ℕ) : Bool :=
  if code = 204 ∨ code = 304 then false
  else
    match s.shouldCompress with
    | none => decide (s.minLength ≤ s.buffer.length)
    | some b => b

/-- Structural invariant of the writer: headers go out exactly when the
status line does, and the compression decision exists exactly from that
point on. -/
def GoodInv (s : gzipResponseWriter) : Prop :=
  s.headersSent = s.wroteHeader ∧ (s.shouldCompress.isSome ↔ s.wroteHeader = true)

/-- `GoodInv` plus: the decision, if made, is "do not compress" (the states
reachable while the body stays below `minLength`). -/
def GoodSmall (s : gzipResponseWriter) : Prop :=
  GoodInv s ∧ s.shouldCompress ≠ some true

end Gzip

/-! ## Lemmas and theorems -/

namespace Ratelimiter

/-- `Allow` at the bucket's own `last` timestamp (zero elapsed time):
no refill happens, one token is consumed iff one is available. -/
theorem allow_mk_last (R : ℚ) (B : ℤ) (c t : ℚ) (h : c ≤ (B : ℚ)) :
    allow ⟨R, B, c, t⟩ t =
      if 1 ≤ c then (true, ⟨R, B, c - 1, t⟩) else (false, ⟨R, B, c, t⟩) := by
  simp [allow, advance, min_eq_right h]

/-- `admitsRun` unfolded on a non-empty time list. -/
theorem admitsRun_cons (l : Limiter) (t : ℚ) (ts : List ℚ) :
    admitsRun l (t :: ts) =
      ((allow l t).1 :: (admitsRun (allow l t).2 ts).1,
       (admitsRun (allow l t).2 ts).2) := rfl

/-- Draining a bucket holding `k ≤ burst` tokens with `k + 1` immediate
checks: the first `k` are admitted, the last rejected, and the bucket ends
empty. -/
theorem admitsRun_drain (R : ℚ) (B : ℤ) (t : ℚ) (k : ℕ) (h : (k : ℚ) ≤ (B : ℚ)) :
    admitsRun ⟨R, B, (k : ℚ), t⟩ (List.replicate (k + 1) t) =
      (List.replicate k true ++ [false], ⟨R, B, 0, t⟩) := by
  induction k with
  | zero =>
    have h0 : (0 : ℚ) ≤ (B : ℚ) := by exact_mod_cast h
    norm_num [admitsRun, allow_mk_last R B 0 t h0]
  | succ n ih =>
    have h1 : (n : ℚ) ≤ (B : ℚ) := le_trans (by push_cast; linarith) h
    have hone : (1 : ℚ) ≤ ((n + 1 : ℕ) : ℚ) := by push_cast; linarith
    have hsub : ((n + 1 : ℕ) : ℚ) - 1 = (n : ℚ) := by push_cast; ring
    have hallow : allow ⟨R, B, ((n + 1 : ℕ) : ℚ), t⟩ t = (true, ⟨R, B, (n : ℚ), t⟩) := by
      rw [allow_mk_last R B _ t h, if_pos hone, hsub]
    rw [List.replicate_succ, admitsRun_cons, hallow]
    dsimp only
    rw [ih h1]
    simp [List.replicate_succ]

/-- An empty bucket rejects every immediate check and stays empty. -/
theorem admitsRun_zero (R : ℚ) (B : ℤ) (t : ℚ) (hB : (0 : ℚ) ≤ (B : ℚ)) (m : ℕ) :
    admitsRun ⟨R, B, 0, t⟩ (List.replicate m t) =
      (List.replicate m false, ⟨R, B, 0, t⟩) := by
  induction m with
  | zero => simp [admitsRun]
  | succ n ih =>
    rw [List.replicate_succ]
    simp only [admitsRun, allow_mk_last R B 0 t hB]
    norm_num [ih, List.replicate_succ]

/-- Refill after full exhaustion: waiting `1/R` seconds yields exactly one
more admission — the next immediate check is rejected again. -/
theorem admitsRun_refill_one (R : ℚ) (B : ℤ) (t : ℚ) (hR : 0 < R) (hB : (1 : ℚ) ≤ (B : ℚ)) :
    admitsRun ⟨R, B, 0, t⟩ [t + 1 / R, t + 1 / R] =
      ([true, false], ⟨R, B, 0, t + 1 / R⟩) := by
  have hR' : R ≠ 0 := ne_of_gt hR
  have h1 : advance ⟨R, B, 0, t⟩ (t + 1 / R) = ⟨R, B, 1, t + 1 / R⟩ := by
    simp [advance, add_sub_cancel_left, inv_mul_cancel₀ hR', min_eq_right hB]
  have hadv : allow ⟨R, B, 0, t⟩ (t + 1 / R) = (true, ⟨R, B, 0, t + 1 / R⟩) := by
    simp only [allow, h1]
    norm_num
  have hzero : (0 : ℚ) ≤ (B : ℚ) := le_trans (by norm_num) hB
  rw [admitsRun_cons, hadv]
  dsimp only
  rw [admitsRun_cons, allow_mk_last R B 0 (t + 1 / R) hzero]
  norm_num [admitsRun]

/-- Refill after full exhaustion: waiting `b/R` seconds restores exactly
the full burst — `b` further checks are admitted, the `(b+1)`-th rejected. -/
theorem admitsRun_refill_full (R : ℚ) (t : ℚ) (b : ℕ) (hR : 0 < R) (hb : 1 ≤ b) :
    admitsRun ⟨R, (b : ℤ), 0, t⟩ (List.replicate (b + 1) (t + (b : ℚ) / R)) =
      (List.replicate b true ++ [false], ⟨R, (b : ℤ), 0, t + (b : ℚ) / R⟩) := by
  have hR' : R ≠ 0 := ne_of_gt hR
  have hone : (1 : ℚ) ≤ (b : ℚ) := by exact_mod_cast hb
  have hcast : (((b : ℤ)) : ℚ) = (b : ℚ) := by push_cast; ring
  have hadv : allow ⟨R, (b : ℤ), 0, t⟩ (t + (b : ℚ) / R) =
      (true, ⟨R, (b : ℤ), (b : ℚ) - 1, t + (b : ℚ) / R⟩) := by
    have : advance ⟨R, (b : ℤ), 0, t⟩ (t + (b : ℚ) / R) =
        ⟨R, (b : ℤ), (b : ℚ), t + (b : ℚ) / R⟩ := by
      simp [advance, div_mul_cancel₀ _ hR', hcast]
    rw [allow, this]
    norm_num [hone]
  have hsub : ((b : ℚ) - 1) = (((b - 1 : ℕ)) : ℚ) := by
    push_cast [hb]; ring
  have hrep : b + 1 = (b - 1) + 1 + 1 := by omega
  have hlist : true :: List.replicate (b - 1) true = List.replicate b true := by
    cases b with
    | zero => exact absurd hb (by omega)
    | succ n => simp [List.replicate_succ]
  rw [hrep, List.replicate_succ, admitsRun_cons, hadv]
  dsimp only
  rw [hsub, admitsRun_drain R (b : ℤ) (t + (b : ℚ) / R) (b - 1)
    (by rw [hcast, ← hsub]; linarith)]
  simp [← hlist, List.cons_append]

/-- Updating the entry under `k` is seen by a lookup of `k` as applying the
update to the stored entry. -/
theorem mapLookup_update_self (l : List (String × limiterEntry)) (k : String)
    (f : limiterEntry → limiterEntry) :
    mapLookup (mapUpdate l k f) k = (mapLookup l k).map f := by
  induction l with
  | nil => rfl
  | cons p rest ih =>
    obtain ⟨k', e⟩ := p
    by_cases hk : k' = k
    · simp [mapUpdate, mapLookup, hk]
    · simp [mapUpdate, mapLookup, hk, ih]

/-- One admission check on a key already present: the decision is the
bucket's, and the entry afterwards holds the post-`Allow` bucket with
`lastAccess` moved to `now`. -/
theorem checkRequest_seen (rl : rateLimiter) (k : String) (t : ℚ) (l : Limiter) (la : ℚ)
    (h : mapLookup rl.limiters k = some ⟨l, la⟩) :
    (checkRequest rl k t).1 = (allow l t).1 ∧
    mapLookup (checkRequest rl k t).2.limiters k = some ⟨(allow l t).2, t⟩ ∧
    (checkRequest rl k t).2.rate = rl.rate ∧
    (checkRequest rl k t).2.burst = rl.burst := by
  simp only [checkRequest, getLimiter, h]
  simp [mapLookup_update_self, h]

/-- One admission check on an unseen key: a fresh full bucket is created,
consulted, and stored. -/
theorem checkRequest_unseen (rl : rateLimiter) (k : String) (t : ℚ)
    (h : mapLookup rl.limiters k = none) :
    (checkRequest rl k t).1 = (allow (NewLimiter rl.rate rl.burst t) t).1 ∧
    mapLookup (checkRequest rl k t).2.limiters k =
      some ⟨(allow (NewLimiter rl.rate rl.burst t) t).2, t⟩ ∧
    (checkRequest rl k t).2.rate = rl.rate ∧
    (checkRequest rl k t).2.burst = rl.burst := by
  simp only [checkRequest, getLimiter, h]
  simp [mapUpdate, mapLookup]

/-- A run of admission checks on one already-present key behaves exactly as
the stored bucket's `Allow` sequence; afterwards the entry holds the final
bucket and the last check time. -/
theorem checkRun_seen (k : String) (ts : List ℚ) :
    ∀ (rl : rateLimiter) (l : Limiter) (la : ℚ),
      mapLookup rl.limiters k = some ⟨l, la⟩ →
      (checkRun rl (ts.map (fun u => (k, u)))).1 = (admitsRun l ts).1 ∧
      mapLookup (checkRun rl (ts.map (fun u => (k, u)))).2.limiters k =
        some ⟨(admitsRun l ts).2, lastOf ts la⟩ ∧
      (checkRun rl (ts.map (fun u => (k, u)))).2.rate = rl.rate ∧
      (checkRun rl (ts.map (fun u => (k, u)))).2.burst = rl.burst := by
  induction ts with
  | nil =>
    intro rl l la h
    simp [checkRun, admitsRun, lastOf, h]
  | cons t rest ih =>
    intro rl l la h
    obtain ⟨h1, h2, h3, h4⟩ := checkRequest_seen rl k t l la h
    obtain ⟨g1, g2, g3, g4⟩ := ih (checkRequest rl k t).2 (allow l t).2 t h2
    simp only [List.map_cons, checkRun, admitsRun_cons]
    refine ⟨?_, ?_, ?_, ?_⟩
    · simp [h1, g1]
    · simpa [lastOf] using g2
    · simp [g3, h3]
    · simp [g4, h4]

/-- A run of admission checks on an unseen key behaves exactly as a fresh
full bucket's `Allow` sequence. -/
theorem checkRun_unseen (rl : rateLimiter) (k : String) (t : ℚ) (ts : List ℚ)
    (h : mapLookup rl.limiters k = none) :
    (checkRun rl ((t :: ts).map (fun u => (k, u)))).1 =
      (admitsRun (NewLimiter rl.rate rl.burst t) (t :: ts)).1 ∧
    mapLookup (checkRun rl ((t :: ts).map (fun u => (k, u)))).2.limiters k =
      some ⟨(admitsRun (NewLimiter rl.rate rl.burst t) (t :: ts)).2, lastOf ts t⟩ ∧
    (checkRun rl ((t :: ts).map (fun u => (k, u)))).2.rate = rl.rate ∧
    (checkRun rl ((t :: ts).map (fun u => (k, u)))).2.burst = rl.burst := by
  obtain ⟨h1, h2, h3, h4⟩ := checkRequest_unseen rl k t h
  obtain ⟨g1, g2, g3, g4⟩ :=
    checkRun_seen k ts (checkRequest rl k t).2 (allow (NewLimiter rl.rate rl.burst t) t).2 t h2
  simp only [List.map_cons, checkRun, admitsRun_cons]
  refine ⟨?_, ?_, ?_, ?_⟩
  · simp [h1, g1]
  · simpa [lastOf] using g2
  · simp [g3, h3]
  · simp [g4, h4]

/-- The last of `n` copies of `t`, starting from default `t`, is `t`. -/
theorem lastOf_replicate (n : ℕ) (t : ℚ) : lastOf (List.replicate n t) t = t := by
  induction n with
  | zero => rfl
  | succ m ih => simpa [List.replicate_succ, lastOf] using ih

/-- The fresh bucket's `ℤ`-burst token count, cast to `ℚ`. -/
theorem newLimiter_cast (R : ℚ) (b : ℕ) (t : ℚ) :
    NewLimiter R (b : ℤ) t = ⟨R, (b : ℤ), (b : ℚ), t⟩ := by
  simp [NewLimiter]

/-- C2: with rate `R > 0` and burst `b ≥ 1`, a never-seen key gets its
first `b` checks admitted and the `(b+1)`-th rejected when all checks
happen with no elapsed time. -/
theorem claim_C2 (R : ℚ) (b : ℕ) (k : String) (t : ℚ) (hR : 0 < R) (hb : 1 ≤ b) :
    (checkRun (newRateLimiter R (b : ℤ)) (List.replicate (b + 1) (k, t))).1 =
      List.replicate b true ++ [false] := by
  have hrep : List.replicate (b + 1) (k, t) =
      (List.replicate (b + 1) t).map (fun u => (k, u)) := by
    simp [List.map_replicate]
  have hmap : (List.replicate (b + 1) t) = t :: List.replicate b t := List.replicate_succ ..
  rw [hrep, hmap]
  have h := (checkRun_unseen (newRateLimiter R (b : ℤ)) k t (List.replicate b t) rfl).1
  simp only [newRateLimiter] at h ⊢
  rw [h, ← hmap, newLimiter_cast]
  rw [admitsRun_drain R (b : ℤ) t b (by push_cast; linarith)]

/-- After `exhaustedRun`, the key's entry holds an empty bucket stamped at
`t`, and the registry's configuration is untouched. -/
theorem exhaustedRun_state (R : ℚ) (b : ℕ) (k : String) (t : ℚ) (hb : 1 ≤ b) :
    mapLookup (exhaustedRun R b k t).limiters k = some ⟨⟨R, (b : ℤ), 0, t⟩, t⟩ ∧
    (exhaustedRun R b k t).rate = R ∧
    (exhaustedRun R b k t).burst = (b : ℤ) := by
  have hrep : List.replicate (b + 1) (k, t) =
      (t :: List.replicate b t).map (fun u => (k, u)) := by
    simp [List.map_replicate, List.replicate_succ]
  obtain ⟨h1, h2, h3, h4⟩ :=
    checkRun_unseen (newRateLimiter R (b : ℤ)) k t (List.replicate b t) rfl
  have hstate : (admitsRun (NewLimiter R (b : ℤ) t) (t :: List.replicate b t)).2 =
      ⟨R, (b : ℤ), 0, t⟩ := by
    rw [newLimiter_cast, ← List.replicate_succ]
    rw [admitsRun_drain R (b : ℤ) t b (by push_cast; linarith)]
  simp only [newRateLimiter] at h2 h3 h4
  simp only [newRateLimiter] at hstate
  refine ⟨?_, ?_, ?_⟩
  · rw [exhaustedRun, hrep]
    simp only [newRateLimiter]
    rw [hstate] at h2
    simpa [lastOf_replicate] using h2
  · rw [exhaustedRun, hrep]
    simp only [newRateLimiter]
    exact h3
  · rw [exhaustedRun, hrep]
    simp only [newRateLimiter]
    exact h4

/-- C3: after a key's burst is exhausted, waiting `1/R` seconds admits
exactly one more check; waiting `b/R` seconds restores exactly the full
burst `b` (the refill is capped at `b` and never exceeds it). -/
theorem claim_C3 (R : ℚ) (b : ℕ) (k : String) (t : ℚ) (hR : 0 < R) (hb : 1 ≤ b) :
    (checkRun (exhaustedRun R b k t) [(k, t + 1 / R), (k, t + 1 / R)]).1 = [true, false] ∧
    (checkRun (exhaustedRun R b k t)
      (List.replicate (b + 1) (k, t + (b : ℚ) / R))).1 =
      List.replicate b true ++ [false] ∧
    (advance ⟨R, (b : ℤ), 0, t⟩ (t + (b : ℚ) / R)).tokens = (b : ℚ) ∧
    (∀ u : ℚ, (advance ⟨R, (b : ℤ), 0, t⟩ u).tokens ≤ (b : ℚ)) := by
  obtain ⟨he, hrate, hburst⟩ := exhaustedRun_state R b k t hb
  have hone : (1 : ℚ) ≤ (((b : ℤ)) : ℚ) := by push_cast; exact_mod_cast hb
  refine ⟨?_, ?_, ?_, ?_⟩
  · have hl : [(k, t + 1 / R), (k, t + 1 / R)] =
        ([t + 1 / R, t + 1 / R]).map (fun u => (k, u)) := rfl
    rw [hl, (checkRun_seen k [t + 1 / R, t + 1 / R] (exhaustedRun R b k t)
      ⟨R, (b : ℤ), 0, t⟩ t he).1]
    rw [admitsRun_refill_one R (b : ℤ) t hR hone]
  · have hl : List.replicate (b + 1) (k, t + (b : ℚ) / R) =
        (List.replicate (b + 1) (t + (b : ℚ) / R)).map (fun u => (k, u)) := by
      simp [List.map_replicate]
    rw [hl, (checkRun_seen k (List.replicate (b + 1) (t + (b : ℚ) / R))
      (exhaustedRun R b k t) ⟨R, (b : ℤ), 0, t⟩ t he).1]
    rw [admitsRun_refill_full R t b hR hb]
  · have hR' : R ≠ 0 := ne_of_gt hR
    simp [advance, div_mul_cancel₀ _ hR']
  · intro u
    simp only [advance]
    exact min_le_left _ _

/-- A key absent from a map is absent from any filtered version of it. -/
theorem mapLookup_filter_none (l : List (String × limiterEntry)) (k : String)
    (p : String × limiterEntry → Bool) (h : mapLookup l k = none) :
    mapLookup (l.filter p) k = none := by
  induction l with
  | nil => rfl
  | cons q rest ih =>
    obtain ⟨k', e⟩ := q
    by_cases hk : k' = k
    · simp [mapLookup, hk] at h
    · simp only [mapLookup, if_neg hk] at h
      by_cases hp : p (k', e) = true
      · simp [List.filter_cons, hp, mapLookup, hk, ih h]
      · simp only [List.filter_cons, hp] at *
        simp [ih h, hp]

/-- A key that maps to nothing is not among the stored keys. -/
theorem mapLookup_eq_none_of_not_mem (l : List (String × limiterEntry)) (k : String)
    (h : k ∉ l.map Prod.fst) : mapLookup l k = none := by
  induction l with
  | nil => rfl
  | cons q rest ih =>
    obtain ⟨k', e⟩ := q
    simp only [List.map_cons, List.mem_cons] at h
    push_neg at h
    have hkk : ¬k' = k := fun hkk => h.1 hkk.symm
    simp [mapLookup, hkk, ih h.2]

/-- What one sweep pass does to each key of a well-formed registry: an
entry idle for more than `maxAge` is removed, every other entry is kept
verbatim (bucket and `lastAccess` untouched), and absent keys stay absent. -/
theorem mapLookup_cleanupPass (l : List (String × limiterEntry)) (now maxAge : ℚ)
    (k : String) (hu : uniqueKeys l) :
    mapLookup (cleanupPass l now maxAge) k =
      match mapLookup l k with
      | none => none
      | some e => if now - e.lastAccess > maxAge then none else some e := by
  induction l with
  | nil => rfl
  | cons q rest ih =>
    obtain ⟨k', e⟩ := q
    have hu' : uniqueKeys rest := by
      have := (List.nodup_cons.mp hu).2
      exact this
    have hnot : k' ∉ rest.map Prod.fst := (List.nodup_cons.mp hu).1
    by_cases hk : k' = k
    · subst hk
      have hrest : mapLookup rest k' = none := mapLookup_eq_none_of_not_mem rest k' hnot
      by_cases hidle : now - e.lastAccess > maxAge
      · simp [cleanupPass, List.filter_cons, hidle, mapLookup,
          mapLookup_filter_none rest k' _ hrest]
      · simp [cleanupPass, List.filter_cons, hidle, mapLookup]
    · by_cases hidle : now - e.lastAccess > maxAge
      · simpa [cleanupPass, List.filter_cons, hidle, mapLookup, hk] using ih hu'
      · simpa [cleanupPass, List.filter_cons, hidle, mapLookup, hk] using ih hu'

/-- C4: each sweep pass removes exactly the entries with
`now - lastAccess > maxAge` and keeps every other entry unchanged; the
middleware built by `New` wires the sweep with a 5-minute interval and a
10-minute max idle age. -/
theorem claim_C4 (l : List (String × limiterEntry)) (now maxAge : ℚ) (k : String)
    (hu : uniqueKeys l) :
    (mapLookup (cleanupPass l now maxAge) k =
      match mapLookup l k with
      | none => none
      | some e => if now - e.lastAccess > maxAge then none else some e) ∧
    (∀ opts : List MwOption,
      (New opts).cleanupInterval = 5 * 60 ∧ (New opts).cleanupMaxAge = 10 * 60) ∧
    (∀ (s : LoopState) (u : ℚ), s.returned = false →
      (loopStep maxAge s (LoopEvent.tick u)).limiters = cleanupPass s.limiters u maxAge) := by
  refine ⟨mapLookup_cleanupPass l now maxAge k hu, ?_, ?_⟩
  · intro opts
    exact ⟨rfl, rfl⟩
  · intro s u hs
    simp [loopStep, hs]

/-- C8: once the sweep evicts an idle key, the next `getLimiter` for that
key builds a fresh bucket with the registry's rate and full burst — the
key is treated exactly as first-time, not as a continuation of the evicted
bucket. -/
theorem claim_C8 (rl : rateLimiter) (k : String) (e : limiterEntry) (now maxAge t : ℚ)
    (hu : uniqueKeys rl.limiters) (he : mapLookup rl.limiters k = some e)
    (hidle : now - e.lastAccess > maxAge) :
    mapLookup (cleanupPass rl.limiters now maxAge) k = none ∧
    (getLimiter { rl with limiters := cleanupPass rl.limiters now maxAge } k t).1 =
      NewLimiter rl.rate rl.burst t ∧
    (NewLimiter rl.rate rl.burst t).tokens = (rl.burst : ℚ) ∧
    (getLimiter { rl with limiters := cleanupPass rl.limiters now maxAge } k t).1 =
      (getLimiter (newRateLimiter rl.rate rl.burst) k t).1 := by
  have hnone : mapLookup (cleanupPass rl.limiters now maxAge) k = none := by
    rw [mapLookup_cleanupPass rl.limiters now maxAge k hu, he]
    simp [hidle]
  refine ⟨hnone, ?_, rfl, ?_⟩
  · simp [getLimiter, hnone]
  · simp [getLimiter, hnone, newRateLimiter, mapLookup]

/-- Once the cleanup loop has returned, nothing it models ever changes. -/
theorem loopStep_returned (maxAge : ℚ) (s : LoopState) (e : LoopEvent)
    (h : s.returned = true) : loopStep maxAge s e = s := by
  simp [loopStep, h]

/-- `loopRun` is constant after the loop has returned. -/
theorem loopRun_returned (maxAge : ℚ) (evs : List LoopEvent) :
    ∀ s : LoopState, s.returned = true → loopRun maxAge s evs = s := by
  induction evs with
  | nil => intro s _; rfl
  | cons e rest ih =>
    intro s h
    rw [loopRun, List.foldl_cons, loopStep_returned maxAge s e h]
    exact ih s h

/-- C9: once the loop observes the cancellation `Stop` triggers, it has
returned (so `Stop`'s wait on `cleanupDone` terminates); whatever later
events the trace contains, no further eviction or state change happens,
and a second `Stop` also returns at once (receiving from the closed
channel), a safe no-op. -/
theorem claim_C9 (maxAge : ℚ) (l0 : List (String × limiterEntry))
    (pre post : List LoopEvent) :
    (loopRun maxAge ⟨l0, false⟩ (pre ++ [LoopEvent.cancelled])).returned = true ∧
    loopRun maxAge ⟨l0, false⟩ (pre ++ LoopEvent.cancelled :: post) =
      loopRun maxAge ⟨l0, false⟩ (pre ++ [LoopEvent.cancelled]) ∧
    Stop true (loopRun maxAge ⟨l0, false⟩ (pre ++ [LoopEvent.cancelled])) = true ∧
    Stop true (loopRun maxAge ⟨l0, false⟩ (pre ++ LoopEvent.cancelled :: post)) = true := by
  have hstep : ∀ s : LoopState, (loopStep maxAge s LoopEvent.cancelled).returned = true := by
    intro s
    by_cases h : s.returned = true
    · simp [loopStep, h]
    · simp only [Bool.not_eq_true] at h
      simp [loopStep, h]
  have h1 : (loopRun maxAge ⟨l0, false⟩ (pre ++ [LoopEvent.cancelled])).returned = true := by
    rw [loopRun, List.foldl_append]
    exact hstep _
  have h2 : loopRun maxAge ⟨l0, false⟩ (pre ++ LoopEvent.cancelled :: post) =
      loopRun maxAge ⟨l0, false⟩ (pre ++ [LoopEvent.cancelled]) := by
    have hsplit : pre ++ LoopEvent.cancelled :: post =
        (pre ++ [LoopEvent.cancelled]) ++ post := by simp
    rw [hsplit, loopRun, List.foldl_append]
    exact loopRun_returned maxAge post _ h1
  refine ⟨h1, h2, ?_, ?_⟩
  · simp [Stop, h1]
  · simp [Stop, h2, h1]

namespace Race

/-- The initial race state satisfies the invariant when every goroutine's
clock reads `t`. -/
theorem inv_init (tnow : ℕ → ℚ) (t maxAge : ℚ) (ht : ∀ i, tnow i = t) :
    Inv t maxAge (init tnow maxAge) := by
  refine ⟨rfl, ht, ?_, ?_, ?_, ?_, ?_⟩
  · intro idx hidx
    simp [init] at hidx
  · intro _
    exact ⟨rfl, fun i => Or.inl rfl⟩
  · intro idx hr
    simp [init] at hr
  · intro i idx hp
    simp [init] at hp
  · intro i idx hp
    simp [init] at hp

/-- A sweep pass observing a time at most `maxAge` past `t` leaves an
invariant state untouched: the registered entry is stamped `t`, so the
idle guard fails. -/
theorem inv_sweep (t maxAge : ℚ) (s : St) (now : ℚ) (h : Inv t maxAge s)
    (hnow : now ≤ t + maxAge) : sweepStep s now = s := by
  obtain ⟨hmax, htn, hheap, hnone, hsome, hfast, hdone⟩ := h
  cases hreg : s.reg with
  | none => simp [sweepStep, hreg]
  | some idx =>
    obtain ⟨h0, h1⟩ := hsome idx hreg
    have hidx : s.heap idx = t := hheap idx (by omega)
    have hguard : ¬(now - s.heap idx > s.maxAge) := by
      rw [hidx, hmax]
      simp only [gt_iff_lt, not_lt]
      linarith
    simp only [sweepStep, hreg, if_neg hguard]

/-- Every goroutine section preserves the invariant. -/
theorem inv_step (t maxAge : ℚ) (s : St) (i : ℕ) (h : Inv t maxAge s) :
    Inv t maxAge (step s i) := by
  obtain ⟨hmax, htn, hheap, hnone, hsome, hfast, hdone⟩ := h
  cases hpc : s.pcs i with
  | done idx =>
    have hstep : step s i = s := by simp [step, hpc]
    rw [hstep]
    exact ⟨hmax, htn, hheap, hnone, hsome, hfast, hdone⟩
  | start =>
    cases hreg : s.reg with
    | some idx =>
      have hstep : step s i =
          { s with pcs := fun j => if j = i then .fastLock idx else s.pcs j } := by
        simp [step, hpc, hreg]
      rw [hstep]
      refine ⟨hmax, htn, hheap, ?_, hsome, ?_, ?_⟩
      · intro hr
        dsimp only at hr
        rw [hreg] at hr
        cases hr
      · intro j jdx hjd
        dsimp only at hjd ⊢
        by_cases hji : j = i
        · rw [if_pos hji] at hjd
          injection hjd with h2
          rw [← h2]
          exact hreg
        · rw [if_neg hji] at hjd
          exact hfast j jdx hjd
      · intro j jdx hjd
        dsimp only at hjd ⊢
        by_cases hji : j = i
        · rw [if_pos hji] at hjd
          cases hjd
        · rw [if_neg hji] at hjd
          exact hdone j jdx hjd
    | none =>
      obtain ⟨hc, hsl⟩ := hnone hreg
      have hstep : step s i =
          { s with pcs := fun j => if j = i then .slow else s.pcs j } := by
        simp [step, hpc, hreg]
      rw [hstep]
      refine ⟨hmax, htn, hheap, ?_, hsome, ?_, ?_⟩
      · intro _
        refine ⟨hc, ?_⟩
        intro j
        dsimp only
        by_cases hji : j = i
        · rw [if_pos hji]
          exact Or.inr rfl
        · rw [if_neg hji]
          exact hsl j
      · intro j jdx hjd
        dsimp only at hjd ⊢
        by_cases hji : j = i
        · rw [if_pos hji] at hjd
          cases hjd
        · rw [if_neg hji] at hjd
          exact hfast j jdx hjd
      · intro j jdx hjd
        dsimp only at hjd ⊢
        by_cases hji : j = i
        · rw [if_pos hji] at hjd
          cases hjd
        · rw [if_neg hji] at hjd
          exact hdone j jdx hjd
  | fastLock idx =>
    have hreg : s.reg = some idx := hfast i idx hpc
    have hstep : step s i =
        { s with
            heap := fun j => if j = idx then s.tnow i else s.heap j
            pcs := fun j => if j = i then .done idx else s.pcs j } := by
      simp [step, hpc]
    rw [hstep]
    refine ⟨hmax, htn, ?_, ?_, hsome, ?_, ?_⟩
    · intro jdx hjdx
      dsimp only at hjdx ⊢
      by_cases hj : jdx = idx
      · rw [if_pos hj]
        exact htn i
      · rw [if_neg hj]
        exact hheap jdx hjdx
    · intro hr
      dsimp only at hr
      rw [hreg] at hr
      cases hr
    · intro j jdx hjd
      dsimp only at hjd ⊢
      by_cases hji : j = i
      · rw [if_pos hji] at hjd
        cases hjd
      · rw [if_neg hji] at hjd
        exact hfast j jdx hjd
    · intro j jdx hjd
      dsimp only at hjd ⊢
      by_cases hji : j = i
      · rw [if_pos hji] at hjd
        injection hjd with h2
        rw [← h2]
        exact hreg
      · rw [if_neg hji] at hjd
        exact hdone j jdx hjd
  | slow =>
    cases hreg : s.reg with
    | some idx =>
      have hstep : step s i =
          { s with
              heap := fun j => if j = idx then s.tnow i else s.heap j
              pcs := fun j => if j = i then .done idx else s.pcs j } := by
        simp [step, hpc, hreg]
      rw [hstep]
      refine ⟨hmax, htn, ?_, ?_, hsome, ?_, ?_⟩
      · intro jdx hjdx
        dsimp only at hjdx ⊢
        by_cases hj : jdx = idx
        · rw [if_pos hj]
          exact htn i
        · rw [if_neg hj]
          exact hheap jdx hjdx
      · intro hr
        dsimp only at hr
        rw [hreg] at hr
        cases hr
      · intro j jdx hjd
        dsimp only at hjd ⊢
        by_cases hji : j = i
        · rw [if_pos hji] at hjd
          cases hjd
        · rw [if_neg hji] at hjd
          exact hfast j jdx hjd
      · intro j jdx hjd
        dsimp only at hjd ⊢
        by_cases hji : j = i
        · rw [if_pos hji] at hjd
          injection hjd with h2
          rw [← h2]
          exact hreg
        · rw [if_neg hji] at hjd
          exact hdone j jdx hjd
    | none =>
      obtain ⟨hc, hsl⟩ := hnone hreg
      have hstep : step s i =
          { s with
              heap := fun j => if j = s.created then s.tnow i else s.heap j
              created := s.created + 1
              reg := some s.created
              pcs := fun j => if j = i then .done s.created else s.pcs j } := by
        simp [step, hpc, hreg]
      rw [hstep]
      refine ⟨hmax, htn, ?_, ?_, ?_, ?_, ?_⟩
      · intro jdx hjdx
        dsimp only at hjdx ⊢
        by_cases hj : jdx = s.created
        · rw [if_pos hj]
          exact htn i
        · rw [if_neg hj]
          exact hheap jdx (by omega)
      · intro hr
        dsimp only at hr
        simp at hr
      · intro jdx hj
        dsimp only at hj ⊢
        injection hj with h2
        exact ⟨by omega, by omega⟩
      · intro j jdx hjd
        dsimp only at hjd ⊢
        by_cases hji : j = i
        · rw [if_pos hji] at hjd
          cases hjd
        · rw [if_neg hji] at hjd
          rcases hsl j with h3 | h3 <;> rw [h3] at hjd <;> cases hjd
      · intro j jdx hjd
        dsimp only at hjd ⊢
        by_cases hji : j = i
        · rw [if_pos hji] at hjd
          injection hjd with h2
          rw [← h2]
        · rw [if_neg hji] at hjd
          rcases hsl j with h3 | h3 <;> rw [h3] at hjd <;> cases hjd

/-- Any interleaving of goroutine sections and sweep passes whose sweep
times stay within `maxAge` of `t` preserves the invariant. -/
theorem inv_exec (t maxAge : ℚ) (evs : List Ev) :
    ∀ s : St, Inv t maxAge s →
      (∀ now, Ev.sweep now ∈ evs → now ≤ t + maxAge) →
      Inv t maxAge (exec s evs) := by
  induction evs with
  | nil => intro s h _; exact h
  | cons e rest ih =>
    intro s h hs
    cases e with
    | run i =>
      exact ih (step s i) (inv_step t maxAge s i h)
        (fun now hmem => hs now (List.mem_cons_of_mem _ hmem))
    | sweep now =>
      have hnow : now ≤ t + maxAge := hs now (List.mem_cons_self _ _)
      have heq := inv_sweep t maxAge s now h hnow
      exact ih (sweepStep s now) (by rw [heq]; exact h)
        (fun n hm => hs n (List.mem_cons_of_mem _ hm))

end Race

/-- Immediate rejections contain no admission. -/
theorem countTrue_replicate_false (m : ℕ) :
    countTrue (List.replicate m false) = 0 := by
  induction m with
  | zero => rfl
  | succ n ih => simpa [List.replicate_succ, countTrue] using ih

/-- A burst-1 bucket admits exactly one of `n ≥ 1` immediate checks. -/
theorem countTrue_burst_one (R t : ℚ) (n : ℕ) (hn : 1 ≤ n) :
    countTrue ((admitsRun (NewLimiter R (1 : ℤ) t) (List.replicate n t)).1) = 1 := by
  obtain ⟨m, rfl⟩ : ∃ m, n = m + 1 := ⟨n - 1, by omega⟩
  have hone : (1 : ℚ) ≤ ((1 : ℤ) : ℚ) := by norm_num
  have hallow : allow ⟨(R : ℚ), (1 : ℤ), 1, t⟩ t = (true, ⟨R, (1 : ℤ), 0, t⟩) := by
    rw [allow_mk_last R 1 1 t hone]
    norm_num
  have hcast : NewLimiter R (1 : ℤ) t = ⟨R, (1 : ℤ), 1, t⟩ := by
    simp [NewLimiter]
  rw [List.replicate_succ, hcast, admitsRun_cons, hallow]
  dsimp only
  rw [admitsRun_zero R 1 t (by norm_num) m]
  simp [countTrue, countTrue_replicate_false]

/-- A sweep pass cannot remove an entry whose `lastAccess` equals the
sweep's own `now` (as set by a resolve that just returned it). -/
theorem cleanupPass_fresh (l : List (String × limiterEntry)) (now maxAge : ℚ)
    (k : String) (e : limiterEntry) (hmax : 0 < maxAge)
    (he : mapLookup l k = some e) (hla : e.lastAccess = now) :
    mapLookup (cleanupPass l now maxAge) k = some e := by
  induction l with
  | nil => cases he
  | cons q rest ih =>
    obtain ⟨k', e'⟩ := q
    by_cases hk : k' = k
    · simp only [mapLookup, if_pos hk] at he
      have hee : e' = e := by injection he
      have hle : now ≤ maxAge + e.lastAccess := by
        rw [hla]
        linarith
      simp [cleanupPass, List.filter_cons, mapLookup, hk, hee, hle]
    · simp only [mapLookup, if_neg hk] at he
      have hrec := ih he
      by_cases hkeep : now - e'.lastAccess > maxAge
      · simpa [cleanupPass, List.filter_cons, hkeep, mapLookup, hk] using hrec
      · simpa [cleanupPass, List.filter_cons, hkeep, mapLookup, hk] using hrec

/-- C7 counterexample: the fast path of `getLimiter` is two separate
critical sections — the `RLock`ed read (part_008:92-94) and, after an
unprotected gap, the `Lock`ed `lastAccess` update (98-100) — and the
cleanup pass (136-144) can run inside that gap.  Concretely: goroutine 0
creates the key's bucket at time 0; at time 1000 goroutine 1's read
returns that bucket; a sweep with max age 600 then fires and deletes it
(idle 1000 > 600) while goroutine 1 is mid-resolve — the bucket is removed
out from under the resolve that is about to return it — and the overlapping
resolve of goroutine 2 misses and creates a second bucket.  The two
concurrent resolves return different buckets (`done 0` vs `done 1`) and two
buckets get created for one key, which no sequential ordering of the three
operations produces: the registry is not linearizable as claimed. -/
theorem claim_C7_counterexample :
    ((Race.exec (Race.init Race.cxTimes 600) Race.cxPrefix).pcs 1 =
       Race.PC.fastLock 0 ∧
     (Race.exec (Race.init Race.cxTimes 600) Race.cxPrefix).reg = none) ∧
    ((Race.exec (Race.init Race.cxTimes 600) Race.cxTrace).pcs 1 =
       Race.PC.done 0 ∧
     (Race.exec (Race.init Race.cxTimes 600) Race.cxTrace).pcs 2 =
       Race.PC.done 1 ∧
     (Race.exec (Race.init Race.cxTimes 600) Race.cxTrace).created = 2 ∧
     (Race.exec (Race.init Race.cxTimes 600) Race.cxTrace).reg = some 1) := by
  norm_num [Race.exec, Race.step, Race.sweepStep, Race.init, Race.cxTimes,
    Race.cxPrefix, Race.cxTrace]

/-- C7 amended: the race guarantees hold exactly when no interleaved sweep
observes the key idle past `maxAge`.  For goroutines racing on a
previously-unseen key with a common clock `t`, any interleaving of their
`getLimiter` sections with sweep passes whose times stay within `maxAge`
of `t` (in particular, the first-time-key scenario, where the entry is
fresh) creates at most one bucket — exactly one once any resolve
completes — and every completed resolve returns that bucket; with burst 1
the `Allow` calls on the shared bucket admit exactly one of `n` immediate
requests; and a sweep pass never removes an entry whose `lastAccess` is
the sweep's own time.  (Without the idle bound the guarantee fails: see
the counterexample, where a sweep deletes a `maxAge`-idle bucket between a
resolve's read and its `lastAccess` update.) -/
theorem claim_C7_amended (t maxAge : ℚ) (sched : List Race.Ev)
    (hs : ∀ now, Race.Ev.sweep now ∈ sched → now ≤ t + maxAge) :
    ((Race.exec (Race.init (fun _ => t) maxAge) sched).created ≤ 1 ∧
     (∀ i idx,
       (Race.exec (Race.init (fun _ => t) maxAge) sched).pcs i =
         Race.PC.done idx →
       idx = 0 ∧
       (Race.exec (Race.init (fun _ => t) maxAge) sched).created = 1)) ∧
    (∀ (R u : ℚ) (n : ℕ), 1 ≤ n →
      countTrue ((admitsRun (NewLimiter R (1 : ℤ) u) (List.replicate n u)).1) = 1) ∧
    (∀ (l : List (String × limiterEntry)) (now maxAge2 : ℚ) (k : String)
        (e : limiterEntry), 0 < maxAge2 → mapLookup l k = some e →
      e.lastAccess = now → mapLookup (cleanupPass l now maxAge2) k = some e) := by
  refine ⟨?_, ?_, ?_⟩
  · have hinv := Race.inv_exec t maxAge sched (Race.init (fun _ => t) maxAge)
      (Race.inv_init (fun _ => t) t maxAge (fun _ => rfl)) hs
    obtain ⟨_, _, _, hnone, hsome, _, hdone⟩ := hinv
    constructor
    · cases hreg : (Race.exec (Race.init (fun _ => t) maxAge) sched).reg with
      | none => simp [(hnone hreg).1]
      | some idx => simp [(hsome idx hreg).2]
    · intro i idx hd
      exact hsome idx (hdone i idx hd)
  · intro R u n hn
    exact countTrue_burst_one R u n hn
  · intro l now maxAge2 k e hmax he hla
    exact cleanupPass_fresh l now maxAge2 k e hmax he hla

/-- C1 counterexample: `New` with the non-positive rate `-1` does not fail
fast — it constructs a middleware whose configuration carries the
non-positive rate unchanged, and that middleware goes on serving: the very
first request is even admitted (the initial burst is intact). -/
theorem claim_C1_counterexample :
    (New [WithRate (-1)]).o.rate = -1 ∧
    (New [WithRate (-1)]).o.rate ≤ 0 ∧
    (serveHTTP (New [WithRate (-1)]).o (New [WithRate (-1)]).limiter
      nextOk reqPeer 0).1.nextCalled = true := by
  have hkey : extractIP reqPeer = "1.2.3.4" := by decide
  refine ⟨rfl, by norm_num [New, WithRate], ?_⟩
  have hcheck : (checkRequest (New [WithRate (-1)]).limiter "1.2.3.4" 0).1 = true := by
    norm_num [checkRequest, getLimiter, New, WithRate, newRateLimiter, mapLookup,
      NewLimiter, allow, advance]
  simp only [serveHTTP]
  have hkf : (New [WithRate (-1)]).o.keyFunc reqPeer = "1.2.3.4" := by
    simp only [New, WithRate, List.foldl_cons, List.foldl_nil]
    exact hkey
  rw [hkf, hcheck]
  simp

/-- C1 amended: `New` performs no construction-time validation at all — a
non-positive rate or burst is neither rejected nor clamped; the values are
passed through unchanged to the options and to the per-key registry, and
the middleware is constructed anyway. -/
theorem claim_C1_amended (r : ℚ) (b : ℤ) (h : r ≤ 0 ∨ b ≤ 0) :
    (New [WithRate r, WithBurst b]).o.rate = r ∧
    (New [WithRate r, WithBurst b]).o.burst = b ∧
    (New [WithRate r, WithBurst b]).limiter.rate = r ∧
    (New [WithRate r, WithBurst b]).limiter.burst = b := by
  exact ⟨rfl, rfl, rfl, rfl⟩

/-- Witness for C1 amended at rate `-1`, burst `0`. -/
theorem claim_C1_amended_witness :
    ((-1 : ℚ) ≤ 0 ∨ (0 : ℤ) ≤ 0) ∧
    (New [WithRate (-1), WithBurst 0]).o.rate = -1 ∧
    (New [WithRate (-1), WithBurst 0]).limiter.burst = 0 := by
  refine ⟨Or.inl (by norm_num), ?_, ?_⟩
  · exact (claim_C1_amended (-1) 0 (Or.inl (by norm_num))).1
  · exact (claim_C1_amended (-1) 0 (Or.inl (by norm_num))).2.2.2

/-- C5: every request takes exactly one of the two paths — continuation or
reject — and a rejected request with no custom error handler gets exactly
the default response: status 429, `Content-Type: application/json`, body
`{"error":"rate limit exceeded"}`, with the wrapped handler not invoked. -/
theorem claim_C5 (o : options) (rl : rateLimiter) (next : Request → HttpResponse)
    (r : Request) (now : ℚ) :
    ((serveHTTP o rl next r now).1.nextCalled =
      !(serveHTTP o rl next r now).1.rejectCalled) ∧
    ((checkRequest rl (o.keyFunc r) now).1 = false → o.errorHandler = none →
      (serveHTTP o rl next r now).1.rejectCalled = true ∧
      (serveHTTP o rl next r now).1.nextCalled = false ∧
      (serveHTTP o rl next r now).1.response.status = 429 ∧
      (serveHTTP o rl next r now).1.response.contentType = some "application/json" ∧
      (serveHTTP o rl next r now).1.response.body =
        "\x7b\"error\":\"rate limit exceeded\"\x7d") := by
  constructor
  · cases hc : (checkRequest rl (o.keyFunc r) now).1 with
    | true => simp [serveHTTP, hc]
    | false =>
      cases hh : o.errorHandler with
      | some h => simp [serveHTTP, hc, hh]
      | none => simp [serveHTTP, hc, hh]
  · intro hc hh
    simp [serveHTTP, hc, hh]

/-- C6 counterexample: with an unparseable peer address and the private,
non-loopback `X-Forwarded-For` entry `10.0.0.1`, the code returns that
private address, while the claimed policy (first *public*, non-loopback
entry) would skip it and fall through to the raw peer address. -/
theorem claim_C6_counterexample :
    extractIP reqPrivateFwd = "10.0.0.1" ∧
    specExtractIP reqPrivateFwd = "bad" ∧
    extractIP reqPrivateFwd ≠ specExtractIP reqPrivateFwd := by
  refine ⟨by decide, by decide, by decide⟩

/-- C6 amended: the default key extraction returns the host part of the
peer address when it splits as `host:port` and parses as an IP; otherwise
the first valid non-loopback `X-Forwarded-For` entry (public or not);
otherwise a valid non-loopback `X-Real-IP`; otherwise the raw peer address
verbatim. -/
theorem claim_C6_amended (r : Request) : extractIP r = amendedExtractIP r := by
  simp only [extractIP, amendedExtractIP, extractIPFromHeaders,
    amendedExtractIP.amendedExtractIPFallback]

/-- Witness for C2 at rate 2, burst 2, key `"a"`, time 0. -/
theorem claim_C2_witness :
    (0 : ℚ) < 2 ∧ (1 : ℕ) ≤ 2 ∧
    (checkRun (newRateLimiter 2 ((2 : ℕ) : ℤ)) (List.replicate (2 + 1) ("a", 0))).1 =
      List.replicate 2 true ++ [false] := by
  exact ⟨by norm_num, by norm_num, claim_C2 2 2 "a" 0 (by norm_num) (by norm_num)⟩

/-- Witness for C3 at rate 2, burst 1, key `"a"`, time 0. -/
theorem claim_C3_witness :
    (0 : ℚ) < 2 ∧ (1 : ℕ) ≤ 1 ∧
    (checkRun (exhaustedRun 2 1 "a" 0) [("a", 0 + 1 / 2), ("a", 0 + 1 / 2)]).1 =
      [true, false] := by
  exact ⟨by norm_num, le_refl 1, (claim_C3 2 1 "a" 0 (by norm_num) (le_refl 1)).1⟩

/-- Witness for C4 on a registry with one idle and one fresh entry,
swept at time 700 with max age 600. -/
theorem claim_C4_witness :
    uniqueKeys [("a", (⟨⟨1, 1, 1, 0⟩, 0⟩ : limiterEntry)),
                ("b", (⟨⟨1, 1, 1, 650⟩, 650⟩ : limiterEntry))] ∧
    mapLookup (cleanupPass [("a", ⟨⟨1, 1, 1, 0⟩, 0⟩), ("b", ⟨⟨1, 1, 1, 650⟩, 650⟩)]
        700 600) "a" =
      match mapLookup [("a", (⟨⟨1, 1, 1, 0⟩, 0⟩ : limiterEntry)),
                       ("b", (⟨⟨1, 1, 1, 650⟩, 650⟩ : limiterEntry))] "a" with
      | none => none
      | some e => if (700 : ℚ) - e.lastAccess > 600 then none else some e := by
  have hu : uniqueKeys [("a", (⟨⟨1, 1, 1, 0⟩, 0⟩ : limiterEntry)),
      ("b", (⟨⟨1, 1, 1, 650⟩, 650⟩ : limiterEntry))] := by
    simp [uniqueKeys]
  exact ⟨hu, (claim_C4 _ 700 600 "a" hu).1⟩

/-- Witness for C5: a burst-0 registry rejects the first request and the
default reject path answers 429. -/
theorem claim_C5_witness :
    (checkRequest (newRateLimiter 10 0) "k" 0).1 = false ∧
    (serveHTTP ⟨10, 0, fun _ => "k", none⟩ (newRateLimiter 10 0) nextOk
      reqPeer 0).1.response.status = 429 := by
  have hc : (checkRequest (newRateLimiter 10 0) "k" 0).1 = false := by
    norm_num [checkRequest, getLimiter, newRateLimiter, mapLookup, NewLimiter,
      allow, advance]
  refine ⟨hc, ?_⟩
  exact ((claim_C5 ⟨10, 0, fun _ => "k", none⟩ (newRateLimiter 10 0) nextOk
    reqPeer 0).2 hc rfl).2.2.1

/-- Witness for C7 amended: three goroutine sections and one in-window
sweep at the idle bound. -/
theorem claim_C7_amended_witness :
    (Race.exec (Race.init (fun _ => (0 : ℚ)) 600)
      [Race.Ev.run 0, Race.Ev.sweep 600, Race.Ev.run 0, Race.Ev.run 1,
       Race.Ev.run 1]).created ≤ 1 := by
  refine (claim_C7_amended 0 600
    [Race.Ev.run 0, Race.Ev.sweep 600, Race.Ev.run 0, Race.Ev.run 1,
     Race.Ev.run 1] ?_).1.1
  intro now hmem
  simp at hmem
  rw [hmem]
  norm_num

/-- Witness for C8: an entry idle for 700 seconds is evicted by a sweep
with max age 600, and the key's next lookup misses. -/
theorem claim_C8_witness :
    uniqueKeys [("a", (⟨⟨1, 1, 0, 0⟩, 0⟩ : limiterEntry))] ∧
    ((700 : ℚ) - (⟨⟨1, 1, 0, 0⟩, 0⟩ : limiterEntry).lastAccess > 600) ∧
    mapLookup (cleanupPass [("a", ⟨⟨1, 1, 0, 0⟩, 0⟩)] 700 600) "a" = none := by
  have hu : uniqueKeys [("a", (⟨⟨1, 1, 0, 0⟩, 0⟩ : limiterEntry))] := by
    simp [uniqueKeys]
  refine ⟨hu, by norm_num, ?_⟩
  exact (claim_C8 ⟨[("a", ⟨⟨1, 1, 0, 0⟩, 0⟩)], 1, 1⟩ "a" ⟨⟨1, 1, 0, 0⟩, 0⟩ 700 600 0
    hu (by decide) (by norm_num)).1

end Ratelimiter

namespace Gzip

/-- `WriteHeader` after the status line is out is a no-op. -/
theorem writeHeader_written (s : gzipResponseWriter) (code : ℕ)
    (h : s.wroteHeader = true) : writeHeaderImpl s code = (s, []) := by
  simp [writeHeaderImpl, h]

/-- `WriteHeader` the first time: it fixes the decision `scDecision`,
marks the headers sent, and emits one header event. -/
theorem writeHeader_not_written (s : gzipResponseWriter) (code : ℕ)
    (h : s.wroteHeader = false) :
    writeHeaderImpl s code =
      ({ s with
          wroteHeader := true
          headersSent := true
          shouldCompress := some (scDecision s code) },
       [.header code (scDecision s code)]) := by
  by_cases hcode : code = 204 ∨ code = 304
  · simp [writeHeaderImpl, h, hcode, scDecision]
  · cases hsc : s.shouldCompress with
    | none => simp [writeHeaderImpl, h, hcode, scDecision, hsc]
    | some b => simp [writeHeaderImpl, h, hcode, scDecision, hsc]

/-- The post-decision write path changes nothing but the buffer. -/
theorem writeTail_fields (s : gzipResponseWriter) (b : List ℕ) :
    (writeTail s b).1.shouldCompress = s.shouldCompress ∧
    (writeTail s b).1.wroteHeader = s.wroteHeader ∧
    (writeTail s b).1.headersSent = s.headersSent ∧
    (writeTail s b).1.minLength = s.minLength := by
  cases hsc : s.shouldCompress with
  | none => simp [writeTail, hsc]
  | some v =>
    cases v <;> by_cases hb : s.buffer.isEmpty <;> simp [writeTail, hsc, hb]

/-- `GoodInv` survives `WriteHeader`. -/
theorem goodInv_writeHeader (s : gzipResponseWriter) (code : ℕ) (h : GoodInv s) :
    GoodInv (writeHeaderImpl s code).1 := by
  cases hw : s.wroteHeader with
  | true =>
    rw [writeHeader_written s code hw]
    exact h
  | false =>
    rw [writeHeader_not_written s code hw]
    exact ⟨rfl, by simp⟩

/-- A decision already made survives `WriteHeader` unchanged. -/
theorem decided_writeHeader (s : gzipResponseWriter) (code : ℕ) (v : Bool)
    (h : GoodInv s) (hv : s.shouldCompress = some v) :
    (writeHeaderImpl s code).1.shouldCompress = some v := by
  have hw : s.wroteHeader = true := h.2.mp (by simp [hv])
  rw [writeHeader_written s code hw]
  exact hv

/-- `directOut` distributes over trace concatenation. -/
theorem directOut_append (a b : List OutEvent) :
    directOut (a ++ b) = directOut a ++ directOut b := by
  induction a with
  | nil => rfl
  | cons e rest ih =>
    cases e <;> simp [directOut, ih]

/-- `hasGz` distributes over trace concatenation. -/
theorem hasGz_append (a b : List OutEvent) :
    hasGz (a ++ b) = (hasGz a || hasGz b) := by
  induction a with
  | nil => rfl
  | cons e rest ih =>
    cases e <;> simp [hasGz, ih]

/-- `hasCE` distributes over trace concatenation. -/
theorem hasCE_append (a b : List OutEvent) :
    hasCE (a ++ b) = (hasCE a || hasCE b) := by
  induction a with
  | nil => rfl
  | cons e rest ih =>
    cases e <;> simp [hasCE, ih, Bool.or_assoc]

/-- `Write` once the decision exists and the headers are out: the whole
call is the flush-and-write tail. -/
theorem writeImpl_sent (s : gzipResponseWriter) (b : List ℕ)
    (hhs : s.headersSent = true) : writeImpl s b = writeTail s b := by
  simp [writeImpl, hhs]

/-- `Write` while undecided and still under `minLength`: the bytes are
buffered, nothing reaches the client. -/
theorem writeImpl_buffer (s : gzipResponseWriter) (b : List ℕ)
    (hhs : s.headersSent = false) (hsc : s.shouldCompress = none)
    (hsmall : s.buffer.length + b.length < s.minLength) :
    writeImpl s b = ({ s with buffer := s.buffer ++ b }, []) := by
  rw [writeImpl, if_neg (by simp [hhs]), if_pos ⟨hsc, hsmall⟩]

/-- `Write` crossing the threshold while undecided: the decision is fixed
from the total length, the headers go out, and the tail runs. -/
theorem writeImpl_decide (s : gzipResponseWriter) (b : List ℕ)
    (hhs : s.headersSent = false) (hw : s.wroteHeader = false)
    (hsc : s.shouldCompress = none)
    (hbig : s.minLength ≤ s.buffer.length + b.length) :
    writeImpl s b =
      ((writeTail { s with
          wroteHeader := true
          headersSent := true
          shouldCompress := some (decide (s.minLength ≤ s.buffer.length + b.length)) } b).1,
       .header 200 (decide (s.minLength ≤ s.buffer.length + b.length)) ::
         (writeTail { s with
          wroteHeader := true
          headersSent := true
          shouldCompress := some (decide (s.minLength ≤ s.buffer.length + b.length)) } b).2) := by
  have hnotsmall : ¬(s.shouldCompress = none ∧ s.buffer.length + b.length < s.minLength) := by
    intro hcontra
    omega
  have hwh := writeHeader_not_written
    { s with shouldCompress := some (decide (s.minLength ≤ s.buffer.length + b.length)) } 200
    (by simpa using hw)
  have hdec : scDecision
      { s with shouldCompress := some (decide (s.minLength ≤ s.buffer.length + b.length)) } 200 =
      decide (s.minLength ≤ s.buffer.length + b.length) := by
    simp [scDecision]
  rw [hdec] at hwh
  rw [hw] at hwh
  rw [writeImpl, if_neg (by simp [hhs]), if_neg hnotsmall]
  simp [hsc, hw, hwh]

/-- `GoodInv` survives `Write`. -/
theorem goodInv_write (s : gzipResponseWriter) (b : List ℕ) (h : GoodInv s) :
    GoodInv (writeImpl s b).1 := by
  by_cases hhs : s.headersSent = true
  · rw [writeImpl_sent s b hhs]
    obtain ⟨f1, f2, f3, f4⟩ := writeTail_fields s b
    exact ⟨by rw [f3, f2, h.1], by rw [f1, f2]; exact h.2⟩
  · have hhs' : s.headersSent = false := by simpa using hhs
    have hw : s.wroteHeader = false := by rw [← h.1]; exact hhs'
    have hsc : s.shouldCompress = none := by
      cases hsceq : s.shouldCompress with
      | none => rfl
      | some v =>
        have := h.2.mp (by simp [hsceq])
        rw [hw] at this
        cases this
    by_cases hsmall : s.buffer.length + b.length < s.minLength
    · rw [writeImpl_buffer s b hhs' hsc hsmall]
      exact ⟨h.1, h.2⟩
    · rw [writeImpl_decide s b hhs' hw hsc (by omega)]
      set s1 : gzipResponseWriter := { s with
        wroteHeader := true
        headersSent := true
        shouldCompress := some (decide (s.minLength ≤ s.buffer.length + b.length)) } with hs1
      obtain ⟨f1, f2, f3, f4⟩ := writeTail_fields s1 b
      refine ⟨?_, ?_⟩
      · rw [f3, f2]
      · rw [f1, f2]
        simp [hs1]

/-- A decision already made survives `Write` unchanged. -/
theorem decided_write (s : gzipResponseWriter) (b : List ℕ) (v : Bool)
    (h : GoodInv s) (hv : s.shouldCompress = some v) :
    (writeImpl s b).1.shouldCompress = some v := by
  have hw : s.wroteHeader = true := h.2.mp (by simp [hv])
  have hhs : s.headersSent = true := by rw [h.1]; exact hw
  rw [writeImpl_sent s b hhs, (writeTail_fields s b).1]
  exact hv

/-- `Close` with the decision already made: only the buffer changes. -/
theorem close_fields_decided (s : gzipResponseWriter) (v : Bool)
    (hv : s.shouldCompress = some v) :
    (closeImpl s).1.shouldCompress = some v ∧
    (closeImpl s).1.wroteHeader = s.wroteHeader ∧
    (closeImpl s).1.headersSent = s.headersSent := by
  have hr1 : ¬(s.shouldCompress = none ∧ ¬s.buffer.isEmpty = true) := by
    simp [hv]
  rw [closeImpl]
  by_cases hb : s.buffer.isEmpty = true
  · cases v <;> simp [hr1, hb, hv]
  · cases v <;> simp [hr1, hb, hv]

/-- `Close` on a buffered, still-undecided response: the decision is taken
from the buffered length, the headers go out, and the buffer is flushed on
the chosen path. -/
theorem close_undecided (s : gzipResponseWriter) (hsc : s.shouldCompress = none)
    (hw : s.wroteHeader = false) (hb : ¬s.buffer.isEmpty = true) :
    (closeImpl s).1 = { s with
      wroteHeader := true
      headersSent := true
      shouldCompress := some (decide (s.minLength ≤ s.buffer.length))
      buffer := [] } ∧
    (closeImpl s).2 =
      (if decide (s.minLength ≤ s.buffer.length) then
        [OutEvent.header 200 true, OutEvent.gz s.buffer, OutEvent.gzClose]
      else
        [OutEvent.header 200 false, OutEvent.direct s.buffer]) := by
  have hwh := writeHeader_not_written
    { s with shouldCompress := some (decide (s.minLength ≤ s.buffer.length)) } 200
    (by simpa using hw)
  have hdec : scDecision
      { s with shouldCompress := some (decide (s.minLength ≤ s.buffer.length)) } 200 =
      decide (s.minLength ≤ s.buffer.length) := by
    simp [scDecision]
  rw [hdec] at hwh
  rw [hw] at hwh
  cases hd : decide (s.minLength ≤ s.buffer.length) with
  | true =>
    rw [hd] at hwh
    constructor <;> simp [closeImpl, hsc, hb, hw, hwh, hd]
  | false =>
    rw [hd] at hwh
    constructor <;> simp [closeImpl, hsc, hb, hw, hwh, hd]

/-- `GoodInv` survives `Close`. -/
theorem goodInv_close (s : gzipResponseWriter) (h : GoodInv s) :
    GoodInv (closeImpl s).1 := by
  cases hsc : s.shouldCompress with
  | some v =>
    obtain ⟨f1, f2, f3⟩ := close_fields_decided s v hsc
    refine ⟨by rw [f3, f2, h.1], ?_⟩
    rw [f1, f2, ← hsc]
    exact h.2
  | none =>
    have hw : s.wroteHeader = false := by
      cases hwe : s.wroteHeader with
      | false => rfl
      | true =>
        have := h.2.mpr hwe
        rw [hsc] at this
        cases this
    by_cases hb : s.buffer.isEmpty = true
    · have hr1 : ¬(s.shouldCompress = none ∧ ¬s.buffer.isEmpty = true) := by simp [hb]
      rw [closeImpl]
      simp only [hr1, if_false, hb, if_true]
      simp [hsc, hb]
      exact ⟨h.1, h.2⟩
    · rw [(close_undecided s hsc hw hb).1]
      exact ⟨rfl, by simp⟩

/-- `runOps` unfolded on a non-empty call list. -/
theorem runOps_cons (s : gzipResponseWriter) (op : HOp) (rest : List HOp) :
    runOps s (op :: rest) =
      ((runOps (applyOp s op).1 rest).1,
       (applyOp s op).2 ++ (runOps (applyOp s op).1 rest).2) := rfl

/-- A `Write` that keeps the total below `minLength` stays on the
uncompressed side: state invariants hold, the written bytes are all
accounted for by direct output plus the buffer, and nothing is compressed. -/
theorem smallWrite (s : gzipResponseWriter) (b : List ℕ) (hg : GoodSmall s)
    (hsmall : s.buffer.length + b.length < s.minLength) :
    GoodSmall (writeImpl s b).1 ∧
    (writeImpl s b).1.minLength = s.minLength ∧
    directOut (writeImpl s b).2 ++ (writeImpl s b).1.buffer = s.buffer ++ b ∧
    (writeImpl s b).1.buffer.length ≤ s.buffer.length + b.length ∧
    hasGz (writeImpl s b).2 = false ∧
    hasCE (writeImpl s b).2 = false := by
  obtain ⟨hinv, hnt⟩ := hg
  by_cases hhs : s.headersSent = true
  · have hw : s.wroteHeader = true := by rw [← hinv.1]; exact hhs
    have hsome : s.shouldCompress.isSome = true := hinv.2.mpr hw
    obtain ⟨v, hv⟩ := Option.isSome_iff_exists.mp hsome
    have hvf : v = false := by
      cases v with
      | false => rfl
      | true => exact absurd hv hnt
    subst hvf
    rw [writeImpl_sent s b hhs, writeTail]
    simp only [hv]
    by_cases hbe : s.buffer.isEmpty = true
    · rw [if_pos hbe]
      have hbeq : s.buffer = [] := by simpa using hbe
      refine ⟨⟨hinv, hnt⟩, rfl, ?_, ?_, rfl, rfl⟩
      · simp [directOut, hbeq]
      · simp
    · rw [if_neg hbe]
      refine ⟨⟨⟨hinv.1, by simp [hw]⟩, by simp⟩, rfl, ?_, ?_, rfl, rfl⟩
      · simp [directOut]
      · simp
  · have hhs' : s.headersSent = false := by simpa using hhs
    have hw : s.wroteHeader = false := by rw [← hinv.1]; exact hhs'
    have hsc : s.shouldCompress = none := by
      cases hsceq : s.shouldCompress with
      | none => rfl
      | some v =>
        have := hinv.2.mp (by simp [hsceq])
        rw [hw] at this
        cases this
    rw [writeImpl_buffer s b hhs' hsc hsmall]
    refine ⟨⟨⟨hinv.1, hinv.2⟩, by simp [hsc]⟩, rfl, by simp [directOut], by simp, rfl, rfl⟩

/-- A `WriteHeader` issued while the body is still below `minLength` fixes
the decision to "do not compress" and sets no `Content-Encoding: gzip`. -/
theorem smallWriteHeader (s : gzipResponseWriter) (code : ℕ) (hg : GoodSmall s)
    (hb : s.buffer.length < s.minLength) :
    GoodSmall (writeHeaderImpl s code).1 ∧
    (writeHeaderImpl s code).1.minLength = s.minLength ∧
    (writeHeaderImpl s code).1.buffer = s.buffer ∧
    directOut (writeHeaderImpl s code).2 = [] ∧
    hasGz (writeHeaderImpl s code).2 = false ∧
    hasCE (writeHeaderImpl s code).2 = false := by
  obtain ⟨hinv, hnt⟩ := hg
  cases hw : s.wroteHeader with
  | true =>
    rw [writeHeader_written s code hw]
    exact ⟨⟨hinv, hnt⟩, rfl, rfl, rfl, rfl, rfl⟩
  | false =>
    have hsc : s.shouldCompress = none := by
      cases hsceq : s.shouldCompress with
      | none => rfl
      | some v =>
        have := hinv.2.mp (by simp [hsceq])
        rw [hw] at this
        cases this
    have hscd : scDecision s code = false := by
      by_cases hcode : code = 204 ∨ code = 304
      · simp [scDecision, hcode]
      · simp only [scDecision, hcode, if_false, hsc]
        simp
        omega
    rw [writeHeader_not_written s code hw, hscd]
    refine ⟨⟨⟨rfl, by simp⟩, by simp⟩, rfl, rfl, rfl, rfl, by simp [hasCE]⟩

/-- Running any handler calls whose total stays below `minLength` keeps the
response on the uncompressed side throughout. -/
theorem smallRun (ops : List HOp) :
    ∀ s : gzipResponseWriter, GoodSmall s →
      s.buffer.length + totalWritten ops < s.minLength →
      GoodSmall (runOps s ops).1 ∧
      (runOps s ops).1.minLength = s.minLength ∧
      directOut (runOps s ops).2 ++ (runOps s ops).1.buffer =
        s.buffer ++ writtenBytes ops ∧
      (runOps s ops).1.buffer.length ≤ s.buffer.length + totalWritten ops ∧
      hasGz (runOps s ops).2 = false ∧
      hasCE (runOps s ops).2 = false := by
  induction ops with
  | nil =>
    intro s hg hb
    exact ⟨hg, rfl, by simp [runOps, directOut, writtenBytes],
      by simp [runOps, totalWritten], rfl, rfl⟩
  | cons op rest ih =>
    intro s hg hb
    cases op with
    | write bs =>
      have htot : totalWritten (HOp.write bs :: rest) = bs.length + totalWritten rest := rfl
      have hsmall : s.buffer.length + bs.length < s.minLength := by
        rw [htot] at hb; omega
      obtain ⟨w1, w2, w3, w4, w5, w6⟩ := smallWrite s bs hg hsmall
      have hb2 : (writeImpl s bs).1.buffer.length + totalWritten rest <
          (writeImpl s bs).1.minLength := by
        have hb2a := hb
        rw [htot] at hb2a
        rw [w2]
        omega
      obtain ⟨r1, r2, r3, r4, r5, r6⟩ := ih (writeImpl s bs).1 w1 hb2
      rw [runOps_cons]
      dsimp only [applyOp]
      refine ⟨r1, by rw [r2, w2], ?_, ?_, ?_, ?_⟩
      · rw [directOut_append, List.append_assoc, r3, ← List.append_assoc, w3]
        simp [writtenBytes]
      · rw [htot]
        omega
      · rw [hasGz_append, w5, r5]
        rfl
      · rw [hasCE_append, w6, r6]
        rfl
    | writeHeader code =>
      have htot : totalWritten (HOp.writeHeader code :: rest) = totalWritten rest := rfl
      have hbuf : s.buffer.length < s.minLength := by
        rw [htot] at hb; omega
      obtain ⟨w1, w2, w3, w4, w5, w6⟩ := smallWriteHeader s code hg hbuf
      have hb2 : (writeHeaderImpl s code).1.buffer.length + totalWritten rest <
          (writeHeaderImpl s code).1.minLength := by
        have hb2a := hb
        rw [htot] at hb2a
        rw [w2, w3]
        omega
      obtain ⟨r1, r2, r3, r4, r5, r6⟩ := ih (writeHeaderImpl s code).1 w1 hb2
      rw [runOps_cons]
      dsimp only [applyOp]
      refine ⟨r1, by rw [r2, w2], ?_, ?_, ?_, ?_⟩
      · rw [directOut_append, List.append_assoc, r3, w4, w3]
        simp [writtenBytes]
      · have r4a := r4
        rw [w3] at r4a
        rw [htot]
        omega
      · rw [hasGz_append, w5, r5]
        rfl
      · rw [hasCE_append, w6, r6]
        rfl

/-- `Close` on a small response flushes the buffer uncompressed: the
buffered bytes go out verbatim, nothing is compressed, and no
`Content-Encoding: gzip` is set. -/
theorem smallClose (s : gzipResponseWriter) (hg : GoodSmall s)
    (hb : s.buffer.length < s.minLength) :
    directOut (closeImpl s).2 = s.buffer ∧
    hasGz (closeImpl s).2 = false ∧
    hasCE (closeImpl s).2 = false := by
  obtain ⟨hinv, hnt⟩ := hg
  cases hsc : s.shouldCompress with
  | none =>
    have hw : s.wroteHeader = false := by
      cases hwe : s.wroteHeader with
      | false => rfl
      | true =>
        have := hinv.2.mpr hwe
        rw [hsc] at this
        cases this
    by_cases hbe : s.buffer.isEmpty = true
    · have hbeq : s.buffer = [] := by simpa using hbe
      simp [closeImpl, hsc, hbe, hbeq, directOut, hasGz, hasCE]
    · have hd : decide (s.minLength ≤ s.buffer.length) = false := by
        simp
        omega
      obtain ⟨c1, c2⟩ := close_undecided s hsc hw hbe
      rw [c2, hd]
      simp [directOut, hasGz, hasCE]
  | some v =>
    have hv : v = false := by
      cases v with
      | false => rfl
      | true => exact absurd hsc hnt
    subst hv
    have hr1 : ¬(s.shouldCompress = none ∧ ¬s.buffer.isEmpty = true) := by
      simp [hsc]
    by_cases hbe : s.buffer.isEmpty = true
    · have hbeq : s.buffer = [] := by simpa using hbe
      rw [closeImpl]
      simp [hr1, hsc, hbe, hbeq, directOut, hasGz, hasCE]
    · rw [closeImpl]
      simp [hr1, hsc, hbe, directOut, hasGz, hasCE]

/-- `GoodInv` holds along every run of handler calls from the fresh
writer. -/
theorem goodInv_runOps (ops : List HOp) :
    ∀ s : gzipResponseWriter, GoodInv s → GoodInv (runOps s ops).1 := by
  induction ops with
  | nil => intro s h; exact h
  | cons op rest ih =>
    intro s h
    rw [runOps_cons]
    cases op with
    | write bs => exact ih _ (goodInv_write s bs h)
    | writeHeader code => exact ih _ (goodInv_writeHeader s code h)

/-- Once made, the compression decision survives any further handler
calls. -/
theorem decided_runOps (ops : List HOp) :
    ∀ (s : gzipResponseWriter) (v : Bool), GoodInv s → s.shouldCompress = some v →
      (runOps s ops).1.shouldCompress = some v := by
  induction ops with
  | nil => intro s v _ hv; exact hv
  | cons op rest ih =>
    intro s v h hv
    rw [runOps_cons]
    cases op with
    | write bs => exact ih _ v (goodInv_write s bs h) (decided_write s bs v h hv)
    | writeHeader code =>
      exact ih _ v (goodInv_writeHeader s code h) (decided_writeHeader s code v h hv)

/-- The fresh writer satisfies the invariant. -/
theorem goodInv_init (minLength : ℕ) : GoodInv (newGzipResponseWriter minLength) := by
  exact ⟨rfl, by simp [newGzipResponseWriter]⟩

/-- C10: when the wrapped handler writes fewer than `minLength` bytes in
total, the client receives the body uncompressed and byte-for-byte as
written, nothing passes through the gzip stream, and no
`Content-Encoding: gzip` header is set; and independently of size, once
the writer's compression decision is made it never changes — not by
further writes or header calls, and not by `Close`. -/
theorem claim_C10 (minLength : ℕ) (ops : List HOp)
    (h : totalWritten ops < minLength) :
    (directOut (runAll (newGzipResponseWriter minLength) ops).2 = writtenBytes ops ∧
     hasGz (runAll (newGzipResponseWriter minLength) ops).2 = false ∧
     hasCE (runAll (newGzipResponseWriter minLength) ops).2 = false) ∧
    (∀ (ops1 ops2 : List HOp) (v : Bool),
      (runOps (newGzipResponseWriter minLength) ops1).1.shouldCompress = some v →
      (runOps (runOps (newGzipResponseWriter minLength) ops1).1 ops2).1.shouldCompress
        = some v ∧
      (closeImpl (runOps (runOps (newGzipResponseWriter minLength) ops1).1
        ops2).1).1.shouldCompress = some v) := by
  constructor
  · have hginit : GoodSmall (newGzipResponseWriter minLength) :=
      ⟨goodInv_init minLength, by simp [newGzipResponseWriter]⟩
    have hbinit : (newGzipResponseWriter minLength).buffer.length + totalWritten ops <
        (newGzipResponseWriter minLength).minLength := by
      simp [newGzipResponseWriter]
      omega
    obtain ⟨r1, r2, r3, r4, r5, r6⟩ := smallRun ops (newGzipResponseWriter minLength)
      hginit hbinit
    simp only [newGzipResponseWriter] at r3 r4
    have hbfin : (runOps (newGzipResponseWriter minLength) ops).1.buffer.length <
        (runOps (newGzipResponseWriter minLength) ops).1.minLength := by
      rw [r2]
      have : (runOps (newGzipResponseWriter minLength) ops).1.buffer.length ≤
          totalWritten ops := by simpa using r4
      omega
    obtain ⟨c1, c2, c3⟩ := smallClose (runOps (newGzipResponseWriter minLength) ops).1
      r1 hbfin
    rw [runAll]
    refine ⟨?_, ?_, ?_⟩
    · rw [directOut_append, c1]
      simpa using r3
    · rw [hasGz_append, r5, c2]
      rfl
    · rw [hasCE_append, r6, c3]
      rfl
  · intro ops1 ops2 v hv
    have hinv1 : GoodInv (runOps (newGzipResponseWriter minLength) ops1).1 :=
      goodInv_runOps ops1 (newGzipResponseWriter minLength) (goodInv_init minLength)
    have h2 := decided_runOps ops2 (runOps (newGzipResponseWriter minLength) ops1).1 v
      hinv1 hv
    have hinv2 : GoodInv (runOps (runOps (newGzipResponseWriter minLength) ops1).1
        ops2).1 := goodInv_runOps ops2 _ hinv1
    exact ⟨h2, (close_fields_decided _ v h2).1⟩

/-- Witness for C10: a 2-byte body against the 4-byte threshold. -/
theorem claim_C10_witness :
    totalWritten [HOp.write [1, 2]] < 4 ∧
    directOut (runAll (newGzipResponseWriter 4) [HOp.write [1, 2]]).2 =
      writtenBytes [HOp.write [1, 2]] := by
  exact ⟨by decide, (claim_C10 4 [HOp.write [1, 2]] (by decide)).1.1⟩

end Gzip
